import Mathlib

/-!
Verification of the multithreaded AOT image emission pipeline
(`src/aotcompile.cpp`): symbol weight estimation, module partitioning by
union-find plus greedy weighted assignment, shard materialization, the image
thread-count heuristic, and archive member layout.

The C++ is shallowly embedded: LLVM modules become lists of symbol records,
the mutable union-find node vector becomes explicit state passing over
index-keyed functions, and machine integers become `Nat` (no arithmetic here
approaches any overflow boundary: weights, counts and thread counts are
small positive quantities).
-/

namespace AotCompile

/-! ## Weight computation (`getFunctionWeight`, lines 629-651)

A function's weight is `(1 + instruction count + basic block count)` scaled
by the clone multiplicity derived from the base-16 `julia.mv.clones`
attribute: `APInt(val.size() * 4, val, 16).countPopulation() + 1`.
-/

/-- Population count: number of set bits, as computed by
`APInt::countPopulation`. -/
def popCount (n : Nat) : Nat := (Nat.digits 2 n).sum

/-- Value of one base-16 digit character, as `APInt`'s radix-16 parser
interprets it. Non-hex-digit characters cannot occur in a well-formed
`julia.mv.clones` attribute; they map to 0 here. -/
def hexDigitVal (c : Char) : Nat :=
  if '0' ≤ c ∧ c ≤ '9' then c.toNat - '0'.toNat
  else if 'a' ≤ c ∧ c ≤ 'f' then c.toNat - 'a'.toNat + 10
  else if 'A' ≤ c ∧ c ≤ 'F' then c.toNat - 'A'.toNat + 10
  else 0

/-- Base-16 string parse, as `APInt(val.size() * 4, val, 16)`. The bit width
`4 * length` always accommodates the value, so plain `Nat` parsing is exact. -/
def parseHex (s : List Char) : Nat := s.foldl (fun acc c => acc * 16 + hexDigitVal c) 0

/-- An LLVM `Function` as far as weight computation is concerned: the list of
basic blocks (each recorded by its instruction count) and the optional
`julia.mv.clones` attribute string. -/
structure Func where
  blocks : List Nat
  clonesAttr : Option (List Char)
  deriving Repr, DecidableEq, Inhabited

structure FunctionInfo where
  weight : Nat
  bbs : Nat
  insts : Nat
  clones : Nat
  deriving Repr, DecidableEq

/-- Clone multiplicity: popcount of the base-16 `julia.mv.clones` bitmask
plus one; 1 when the attribute is absent. -/
def cloneMultiplicity : Option (List Char) → Nat
  | none => 1
  | some val => popCount (parseHex val) + 1

/-- `getFunctionWeight` (lines 629-651): weight starts at 1, adds the
instruction count, adds the basic-block count, then multiplies by the clone
multiplicity. -/
def getFunctionWeight (F : Func) : FunctionInfo :=
  let bbs := F.blocks.length
  let insts := F.blocks.sum
  let clones := cloneMultiplicity F.clonesAttr
  { weight := (1 + insts + bbs) * clones
    bbs := bbs
    insts := insts
    clones := clones }

/-! ## Thread-count heuristic (`compute_image_thread_count`, lines 1411-1471)

Modelled for a 64-bit build (the `_P32` early return is compile-time
excluded there). Environment lookups (`JULIA_IMAGE_THREADS`,
`JULIA_CPU_THREADS`) become explicit optional string inputs. `strtoul` with
base 10 on the override values becomes a leading-decimal-digit parse
returning the value and the unconsumed remainder (the `endptr` residue).
-/

/-- `strtoul(s, &endptr, 10)` on the digit strings of interest: consume
leading decimal digits, return the accumulated value and the rest of the
string (what `endptr` points at). -/
def strtoulAux : Nat → List Char → Nat × List Char
  | acc, [] => (acc, [])
  | acc, c :: cs =>
    if c.isDigit then strtoulAux (acc * 10 + (c.toNat - '0'.toNat)) cs
    else (acc, c :: cs)

def strtoul10 (s : List Char) : Nat × List Char := strtoulAux 0 s

/-- The two environment overrides read by `compute_image_thread_count`. -/
structure ThreadEnv where
  imageThreads : Option (List Char)
  cpuThreads : Option (List Char)
  deriving Repr, DecidableEq

/-- `compute_image_thread_count` (lines 1411-1471). Inputs are the module
statistics it reads (`info.triple.isOSBinFormatCOFF()`, `info.globals`,
`info.weight`), the `jl_cpu_threads()` value, and the environment. Returns
the thread count together with the warnings printed along the way. -/
def compute_image_thread_count (isCOFF : Bool) (globals weight jlCpuThreads : Nat)
    (env : ThreadEnv) : Nat × List String :=
  if isCOFF = true ∧ globals > 64000 then (1, [])
  else if weight < 1000 then (1, [])
  else
    let threads := Nat.max (jlCpuThreads / 2) 1
    let maxThreads := globals / 100
    let threads := if maxThreads < threads then maxThreads else threads
    let parsedImage :=
      match env.imageThreads with
      | none => (threads, false, ([] : List String))
      | some s =>
        let p := strtoul10 s
        if p.2 ≠ [] ∨ p.1 = 0 then
          (threads, false, ["WARNING: invalid value for JULIA_IMAGE_THREADS"])
        else (p.1, true, [])
    let threads := parsedImage.1
    let envThreadsSet := parsedImage.2.1
    let warns := parsedImage.2.2
    let afterFallback :=
      if ¬envThreadsSet ∧ threads > 1 then
        match env.cpuThreads with
        | none => (threads, warns)
        | some s =>
          let p := strtoul10 s
          if p.2 ≠ [] ∨ p.1 = 0 then
            (threads, warns ++ ["WARNING: invalid value for JULIA_CPU_THREADS"])
          else if p.1 < threads then (p.1, warns)
          else (threads, warns)
      else (threads, warns)
    (Nat.max afterFallback.1 1, afterFallback.2)

/-! ## Archive member layout (`jl_dump_native_impl`, `WRITE_ARCHIVE`,
lines 1753-1783)

For one requested output kind (identified by its name infix `pfx` and file
extension `sfx`) the archive member name list is: one `text` member per
shard carrying the shard index, then `metadata`, then `sysimg` exactly when
a system image buffer `z` was supplied. -/
def archiveMembers (threads : Nat) (pfx sfx : String) (hasSysimg : Bool) : List String :=
  ((List.range threads).map (fun i => "text" ++ pfx ++ "#" ++ toString i ++ sfx))
    ++ ["metadata" ++ pfx ++ sfx]
    ++ (if hasSysimg then ["sysimg" ++ pfx ++ sfx] else [])

/-- The four `WRITE_ARCHIVE` expansions: `(pfx, sfx)` per requested kind. -/
def archiveKinds : List (String × String) :=
  [("_unopt", ".bc"), ("_opt", ".bc"), ("", ".o"), ("", ".s")]

/-! ## Partitioner (`partitionModule`, lines 785-920)

A module, for partitioning purposes, is the list of its global values. Each
carries its name, declaration flag, `AlwaysInline` flag, function payload
(for weight computation) and the names of the global values its definition
references (the sources of `ConstantUses` edges: the users of `B` are the
globals whose `refs` contain `B`'s name).

`get_fvars_gvars` (lines 586-615) has already consumed the four index-table
globals; it yields position-keyed maps from global to flat id, modelled here
as the two name lists `fvarsL`/`gvarsL` whose positions are the flat ids. -/
structure PGlobal where
  name : String
  decl : Bool
  alwaysInline : Bool
  func? : Option Func
  refs : List String
  deriving Repr, DecidableEq, Inhabited

/-- `canPartition` (lines 698-704): everything except `AlwaysInline`
functions. -/
def canPartition (g : PGlobal) : Bool :=
  match g.func? with
  | some _ => !g.alwaysInline
  | none => true

/-- The node-making filter of the first loop of `partitionModule`
(lines 834-846): non-declaration globals passing `canPartition`. -/
def partitionable (g : PGlobal) : Bool := !g.decl && canPartition g

/-- The weight given to a fresh partitioner node (lines 841-845): the
function weight for functions, 1 for all other globals. -/
def nodeWeight (g : PGlobal) : Nat :=
  match g.func? with
  | some F => (getFunctionWeight F).weight
  | none => 1

/-- The `Partitioner` node vector (`struct Node` at lines 792-797), with the
vector modelled as index-keyed functions plus the node count. `gv` stores the
node's global by name. -/
structure UFState where
  n : Nat
  gv : Nat → String
  parent : Nat → Nat
  size : Nat → Nat
  weight : Nat → Nat

def UFState.empty : UFState :=
  { n := 0, gv := fun _ => "", parent := fun j => j, size := fun _ => 0, weight := fun _ => 0 }

/-- `Partitioner::make` (lines 802-807). -/
def UFState.make (st : UFState) (name : String) (w : Nat) : UFState where
  n := st.n + 1
  gv := fun j => if j = st.n then name else st.gv j
  parent := fun j => if j = st.n then st.n else st.parent j
  size := fun j => if j = st.n then 1 else st.size j
  weight := fun j => if j = st.n then w else st.weight j

def UFState.setParent (st : UFState) (i p : Nat) : UFState :=
  { st with parent := fun j => if j = i then p else st.parent j }

def UFState.setSize (st : UFState) (i s : Nat) : UFState :=
  { st with size := fun j => if j = i then s else st.size j }

def UFState.setWeight (st : UFState) (i w : Nat) : UFState :=
  { st with weight := fun j => if j = i then w else st.weight j }

/-- The `node_map` lookup: nodes are created once per global, so the node
holding a name is its index. -/
def UFState.nodeIdx? (st : UFState) (name : String) : Option Nat :=
  (List.range st.n).find? (fun i => st.gv i = name)

/-- `Partitioner::find` (lines 809-815) with path halving:
`nodes[idx].parent = nodes[nodes[idx].parent].parent; idx = nodes[idx].parent`.
The loop is fuel-bounded; `st.n` steps always suffice on well-formed states
(proved below), mirroring the terminating C++ loop. -/
def UFState.findAux : UFState → Nat → Nat → UFState × Nat
  | st, idx, 0 => (st, idx)
  | st, idx, fuel+1 =>
    if st.parent idx = idx then (st, idx)
    else
      let gp := st.parent (st.parent idx)
      UFState.findAux (st.setParent idx gp) gp fuel

def UFState.find (st : UFState) (idx : Nat) : UFState × Nat := st.findAux idx st.n

/-- The tail of `Partitioner::merge` after the swap (lines 824-828):
`nodes[y].parent = x; nodes[x].size += nodes[y].size;
nodes[x].weight += nodes[y].weight`. -/
def mergeLink (st2 : UFState) (x y : Nat) : UFState :=
  let st3 := st2.setParent y x
  let st4 := st3.setSize x (st3.size x + st3.size y)
  st4.setWeight x (st4.weight x + st4.weight y)

/-- `Partitioner::merge` (lines 817-829): union by size (the
`std::swap(x, y)` on `size x < size y` appears as the middle branch),
accumulating weight at the root. (The `merged` counter is write-only in the
source and omitted.) -/
def UFState.merge (st : UFState) (x y : Nat) : UFState :=
  let fx := st.find x
  let st1 := fx.1
  let fy := st1.find y
  let st2 := fy.1
  if fx.2 = fy.2 then st2
  else if st2.size fx.2 < st2.size fy.2 then mergeLink st2 fy.2 fx.2
  else mergeLink st2 fx.2 fy.2

/-- The first loop of `partitionModule` (lines 834-846): one node per
partitionable definition, in module order. (The linkage/visibility writes on
`M` do not affect partitioning and reappear in the materializer model.) -/
def buildNodes (M : List PGlobal) : UFState :=
  M.foldl (fun st g => if partitionable g then st.make g.name (nodeWeight g) else st)
    UFState.empty

/-- The `ConstantUses` traversal for node `i`'s global (lines 850-857): every
global value whose definition references it, looked up in `node_map`. A user
that is not itself a node is skipped (the source asserts this cannot happen
for well-formed inputs). -/
def userIdxs (M : List PGlobal) (st : UFState) (name : String) : List Nat :=
  M.filterMap (fun g => if name ∈ g.refs then st.nodeIdx? g.name else none)

/-- The merge loop of `partitionModule` (lines 849-858). -/
def mergePhase (M : List PGlobal) (st0 : UFState) : UFState :=
  (List.range st0.n).foldl
    (fun st i => (userIdxs M st (st.gv i)).foldl (fun st2 u => st2.merge i u) st)
    st0

/-- `struct Partition` (lines 691-696). The `StringMap` payload of `globals`
is always `true` at the two insertion sites of `partitionModule`. -/
structure Partition where
  globals : List (String × Bool)
  fvars : List (String × Nat)
  gvars : List (String × Nat)
  weight : Nat
  deriving Repr, DecidableEq, Inhabited

/-- The priority queue of partitions ordered by `weight >` (lines 862-868):
`pq.top()` is a partition of minimal current weight. Modelled as first index
of minimal weight (`std::priority_queue` leaves the choice among ties
unspecified). -/
def minIdx (parts : List Partition) : Nat :=
  (List.range parts.length).foldl
    (fun best j =>
      if (parts.getD j default).weight < (parts.getD best default).weight then j else best)
    0

/-- The index sort of lines 870-876: `std::sort` descending by node weight
(ties in unspecified order), realised as an insertion sort. -/
def insertDesc (w : Nat → Nat) (x : Nat) : List Nat → List Nat
  | [] => [x]
  | y :: ys => if w x > w y then x :: y :: ys else y :: insertDesc w x ys

def sortDesc (w : Nat → Nat) (l : List Nat) : List Nat := l.foldr (insertDesc w) []

/-- Flat id of a name in an index table: `get_fvars_gvars` keys each listed
global by its position. -/
def flatId? (l : List String) (nm : String) : Option Nat := l.findIdx? (· = nm)

/-- The three `P.globals` / `P.fvars` / `P.gvars` insertions shared by both
branches of the assignment loop (lines 887-892 and 904-909). -/
def insertEntries (fvarsL gvarsL : List String) (nm : String) (P : Partition) : Partition :=
  let P1 := { P with globals := (nm, true) :: P.globals }
  let P2 :=
    match flatId? fvarsL nm with
    | some k => { P1 with fvars := (nm, k) :: P1.fvars }
    | none => P1
  match flatId? gvarsL nm with
  | some k => { P2 with gvars := (nm, k) :: P2.gvars }
  | none => P2

/-- Branch 1 of the assignment loop (lines 883-897): when the component root
still carries its accumulated weight, assign the root to the lightest
partition (`pq.top()`), which absorbs the component weight; record the
partition index in the root's repurposed `size` field and zero its weight. -/
def assignRoot (fvarsL gvarsL : List String) (sp : UFState × List Partition)
    (root : Nat) : UFState × List Partition :=
  if sp.1.weight root ≠ 0 then
    let q := minIdx sp.2
    let P := insertEntries fvarsL gvarsL (sp.1.gv root) (sp.2.getD q default)
    ((sp.1.setWeight root 0).setSize root q,
      sp.2.set q { P with weight := P.weight + sp.1.weight root })
  else sp

/-- Branch 2 of the assignment loop (lines 898-912): a non-root member joins
the partition recorded in its root's `size` field; its own weight is zeroed
and its `size` repurposed likewise. -/
def assignChild (fvarsL gvarsL : List String) (sp : UFState × List Partition)
    (root i : Nat) : UFState × List Partition :=
  if root ≠ i then
    let q := sp.1.size root
    ((sp.1.setWeight i 0).setSize i q,
      sp.2.set q (insertEntries fvarsL gvarsL (sp.1.gv i) (sp.2.getD q default)))
  else sp

/-- One iteration of the assignment loop (lines 879-913): find the root
(mutating the union-find by path halving), then the two branches in order. -/
def assignStep (fvarsL gvarsL : List String) :
    UFState × List Partition → Nat → UFState × List Partition :=
  fun sp i =>
    let f := sp.1.find i
    assignChild fvarsL gvarsL (assignRoot fvarsL gvarsL (f.1, sp.2) f.2) f.2 i

/-- `partitionModule` (lines 785-920): build nodes, merge along use edges,
then greedily assign components to `threads` partitions in descending weight
order. -/
def partitionModule (M : List PGlobal) (fvarsL gvarsL : List String) (threads : Nat) :
    List Partition :=
  let st1 := mergePhase M (buildNodes M)
  let idxs := sortDesc st1.weight (List.range st1.n)
  (idxs.foldl (assignStep fvarsL gvarsL) (st1, List.replicate threads default)).2

/-! ### A small concrete module used to exercise the model

`exA` is a two-block function referencing `exB` (a plain global variable);
`exC` is an independent function; `exD` is a declaration and `exE` an
`AlwaysInline` function, both excluded from partitioning. -/
def exA : PGlobal := ⟨"a", false, false, some ⟨[2, 3], none⟩, ["b"]⟩

def exB : PGlobal := ⟨"b", false, false, none, []⟩

def exC : PGlobal := ⟨"c", false, false, some ⟨[1], none⟩, []⟩

def exD : PGlobal := ⟨"d", true, false, none, []⟩

def exE : PGlobal := ⟨"e", false, true, some ⟨[9], none⟩, []⟩

def exM : List PGlobal := [exA, exB, exC, exD, exE]

/-- A concrete pre-assignment state over `exM` with two empty partitions. -/
def exSP : UFState × List Partition := (buildNodes exM, List.replicate 2 default)

/-! ## Specification functions for the union-find state

`rootN`/`root` is the pure (non-mutating) root of an index: what `find`
computes. `RkRaw` asserts the existence of a rank function strictly
increasing along parent edges, which is how the parent graph of a union-find
forest stays acyclic; `WF` packages it. -/

def rootN (st : UFState) : Nat → Nat → Nat
  | 0, idx => idx
  | fuel+1, idx => if st.parent idx = idx then idx else rootN st fuel (st.parent idx)

def UFState.root (st : UFState) (idx : Nat) : Nat := rootN st st.n idx

/-- `r` is a parent-chain-reachable fixpoint from `j`. -/
def IsRootOf (st : UFState) (j r : Nat) : Prop :=
  st.parent r = r ∧ ∃ k, (st.parent)^[k] j = r

/-- `rk` strictly increases along non-trivial parent edges, and parents stay
in range. -/
def RkRaw (st : UFState) (rk : Nat → Nat) : Prop :=
  ∀ i, i < st.n → st.parent i < st.n ∧ (st.parent i ≠ i → rk i < rk (st.parent i))

def WF (st : UFState) : Prop := ∃ rk, RkRaw st rk

/-- Invariant bundle carried across the merge phase: fixed node count and
names, well-formedness, and strictly positive node weights. -/
def MB (n0 : Nat) (gvf : Nat → String) (st : UFState) : Prop :=
  st.n = n0 ∧ (∀ j, st.gv j = gvf j) ∧ WF st ∧ (∀ j, j < n0 → 1 ≤ st.weight j)

/-- All `(name, flag)` entries over all partitions' `globals` tables. -/
def allGlobals (parts : List Partition) : List (String × Bool) :=
  (parts.map (fun p => p.globals)).flatten

/-- Node indices whose weight has been zeroed, i.e. already assigned to a
partition by the assignment loop. -/
def zeroedList (n : Nat) (w : Nat → Nat) : List Nat :=
  (List.range n).filter (fun j => w j = 0)

/-- All `(name, flat id)` entries over all partitions' `fvars` tables. -/
def allFvars (parts : List Partition) : List (String × Nat) :=
  (parts.map (fun p => p.fvars)).flatten

/-- All `(name, flat id)` entries over all partitions' `gvars` tables. -/
def allGvars (parts : List Partition) : List (String × Nat) :=
  (parts.map (fun p => p.gvars)).flatten

/-- Master invariant of the assignment loop of `partitionModule`, over the
suffix `rem` of indices still to process. `R` is the (frozen) root function
and `W` the (frozen) node weights after the merge phase. -/
def AInv (n T : Nat) (gvf : Nat → String) (R W : Nat → Nat)
    (fvarsL gvarsL : List String) (rem : List Nat)
    (sp : UFState × List Partition) : Prop :=
  sp.1.n = n
  ∧ (∀ j, sp.1.gv j = gvf j)
  ∧ WF sp.1
  ∧ (∀ j, j < n → sp.1.root j = R j)
  ∧ sp.2.length = T
  ∧ (∀ j, j < n → sp.1.weight j = 0 ∨ sp.1.weight j = W j)
  ∧ (∀ j, j < n → R j ≠ j → j ∈ rem → sp.1.weight j = W j)
  ∧ (∀ j, j < n → j ∉ rem → sp.1.weight j = 0)
  ∧ (∀ j, j < n → sp.1.weight j = 0 →
      sp.1.weight (R j) = 0 ∧ sp.1.size (R j) < T
        ∧ (gvf j, true) ∈ (sp.2.getD (sp.1.size (R j)) default).globals)
  ∧ (∀ x, (allGlobals sp.2).count x
      = ((zeroedList n sp.1.weight).map (fun j => (gvf j, true))).count x)
  ∧ (∀ x, (allFvars sp.2).count x
      = ((zeroedList n sp.1.weight).filterMap
          (fun j => (flatId? fvarsL (gvf j)).map (fun k => (gvf j, k)))).count x)
  ∧ (∀ x, (allGvars sp.2).count x
      = ((zeroedList n sp.1.weight).filterMap
          (fun j => (flatId? gvarsL (gvf j)).map (fun k => (gvf j, k)))).count x)

/-! ## The shard materializer (`materializePreserved`, lines 1129-1211)

The LLVM module is modelled as a list of global values. Pointer identity is
modelled by a numeric `id`; `ops` is the list of ids of the global values a
value's body / initializer / aliasee refers to. `hasBody` stands for "has a
body" for functions, "has an initializer" for global variables, and is the
constant `true` for aliases (aliases cannot be declarations); `tyFunc` is
`getValueType()->isFunctionTy()`. `Preserve` membership is modelled by name
lookup, matching the source's name-keyed `partition.globals` walk. -/
inductive MKind where
  | Func
  | Var
  | Alias
  deriving Repr, DecidableEq, Inhabited

structure MGlobal where
  id : Nat
  name : String
  kind : MKind
  hasBody : Bool
  localLinkage : Bool
  tyFunc : Bool
  ops : List Nat
  deriving Repr, DecidableEq, Inhabited

/-- Names inserted into `Preserve` (lines 1130-1143): the partition entries
carrying a `true` payload. -/
def preserveNames (part : List (String × Bool)) : List String :=
  part.filterMap (fun p => if p.2 then some p.1 else none)

/-- The `!Name.second` branch (lines 1134-1139): internal linkage instead of
preservation. -/
def markInternal (part : List (String × Bool)) (g : MGlobal) : MGlobal :=
  if (g.name, false) ∈ part then { g with localLinkage := true } else g

/-- The function-body strip loop (lines 1145-1156): `deleteBody` makes the
function a declaration and drops its body's uses. -/
def stripFunc (pres : List String) (g : MGlobal) : MGlobal :=
  if g.kind = MKind.Func ∧ g.hasBody ∧ ¬g.localLinkage ∧ g.name ∉ pres then
    { g with hasBody := false, ops := [] }
  else g

/-- The global-variable strip loop (lines 1158-1169): `setInitializer(nullptr)`
makes the variable a declaration and drops its initializer's uses. -/
def stripVar (pres : List String) (g : MGlobal) : MGlobal :=
  if g.kind = MKind.Var ∧ g.hasBody ∧ g.name ∉ pres ∧ ¬g.localLinkage then
    { g with hasBody := false, ops := [] }
  else g

def maxId (Mod : List MGlobal) : Nat := (Mod.map MGlobal.id).foldr max 0

/-- A fresh id for a newly created global value (`Function::Create` /
`new GlobalVariable`). -/
def freshId (Mod : List MGlobal) : Nat := maxId Mod + 1

/-- The dummy replacement of lines 1184-1195: a bodyful function (the
"extremely sad hack" unreachable body) or a zero-initialised variable, with an
empty name. -/
def mkPlaceholder (a : MGlobal) (pid : Nat) : MGlobal :=
  { id := pid, name := "", kind := if a.tyFunc then MKind.Func else MKind.Var,
    hasBody := true, localLinkage := false, tyFunc := a.tyFunc, ops := [] }

/-- `GA.setAliasee(F)` (line 1189): the alias's single operand becomes the
placeholder. -/
def setAliasee (Mod : List MGlobal) (aid pid : Nat) : List MGlobal :=
  Mod.map (fun g => if g.id = aid then { g with ops := [pid] } else g)

/-- One iteration of the alias loop (lines 1178-1196). -/
def aliasStep (pres : List String) (acc : List MGlobal × List (Nat × Nat))
    (a : MGlobal) : List MGlobal × List (Nat × Nat) :=
  if a.name ∉ pres ∧ ¬a.localLinkage then
    (setAliasee acc.1 a.id (freshId acc.1) ++ [mkPlaceholder a (freshId acc.1)],
      acc.2 ++ [(a.id, freshId acc.1)])
  else acc

/-- The alias loop: module state plus the `DeletedAliases` vector. -/
def aliasPhase (pres : List String) (Mod : List MGlobal) :
    List MGlobal × List (Nat × Nat) :=
  (Mod.filter (fun g => g.kind = MKind.Alias)).foldl (aliasStep pres) (Mod, [])

def lookupName (Mod : List MGlobal) (aid : Nat) : String :=
  ((Mod.find? (fun g => g.id = aid)).map MGlobal.name).getD ""

/-- `Deleted.second->takeName(Deleted.first)` (line 1201). -/
def takeName (Mod : List MGlobal) (aid pid : Nat) : List MGlobal :=
  Mod.map (fun g => if g.id = pid then { g with name := lookupName Mod aid } else g)

/-- `replaceAllUsesWith` (line 1202): every operand equal to the alias's id is
redirected to the placeholder's id. -/
def rauw (Mod : List MGlobal) (aid pid : Nat) : List MGlobal :=
  Mod.map (fun g => { g with ops := g.ops.map (fun o => if o = aid then pid else o) })

/-- `eraseFromParent` (line 1203). -/
def eraseId (Mod : List MGlobal) (aid : Nat) : List MGlobal :=
  Mod.filter (fun g => g.id ≠ aid)

/-- Undoing the sad hack (lines 1205-1209): strip the placeholder back to a
declaration. -/
def stripPlaceholder (Mod : List MGlobal) (pid : Nat) : List MGlobal :=
  Mod.map (fun g => if g.id = pid then { g with hasBody := false, ops := [] } else g)

/-- One iteration of the deletion loop (lines 1200-1210). -/
def deleteStep (Mod : List MGlobal) (d : Nat × Nat) : List MGlobal :=
  stripPlaceholder (eraseId (rauw (takeName Mod d.1 d.2) d.1 d.2) d.1) d.2

/-- `materializePreserved` (lines 1129-1211). `materializeAll` (line 1198) is
the identity here: the embedding keeps use lists explicit throughout. -/
def materializePreserved (Mod : List MGlobal) (part : List (String × Bool)) :
    List MGlobal :=
  let pres := preserveNames part
  let M3 := ((Mod.map (markInternal part)).map (stripFunc pres)).map (stripVar pres)
  let ad := aliasPhase pres M3
  ad.2.foldl deleteStep ad.1

/-- Invariant of the alias loop: the module's ids are the original ids
followed by the placeholder ids, without duplicates. -/
def JInv (Mod0 : List MGlobal) (acc : List MGlobal × List (Nat × Nat)) : Prop :=
  acc.1.map MGlobal.id = Mod0.map MGlobal.id ++ acc.2.map Prod.snd
  ∧ (acc.1.map MGlobal.id).Nodup

/-! ### A concrete module for the materializer -/

/-- A preserved function, an alias to it, and a preserved user of the alias. -/
def exF : MGlobal := ⟨1, "f", MKind.Func, true, false, true, []⟩

def exAl : MGlobal := ⟨2, "al", MKind.Alias, true, false, true, [1]⟩

def exU : MGlobal := ⟨3, "u", MKind.Func, true, false, true, [2]⟩

def exMod : List MGlobal := [exF, exAl, exU]

def exPart : List (String × Bool) := [("u", true), ("f", true)]

/-! ## Theorems: weight, thread count, archive layout -/

theorem getFunctionWeight_pos (F : Func) : 0 < (getFunctionWeight F).weight := by
  unfold getFunctionWeight
  have h1 : 0 < 1 + F.blocks.sum + F.blocks.length := by omega
  have h2 : 0 < cloneMultiplicity F.clonesAttr := by
    unfold cloneMultiplicity
    cases F.clonesAttr <;> simp
  exact Nat.mul_pos h1 h2

/-! ### Union-find: roots, ranks, `find`, `merge` -/

theorem iterate_parent_lt (st : UFState) (rk : Nat → Nat) (h : RkRaw st rk) :
    ∀ k j, j < st.n → (st.parent)^[k] j < st.n := by
  intro k
  induction k with
  | zero => intro j hj; simpa using hj
  | succ k ih =>
    intro j hj
    rw [Function.iterate_succ_apply]
    exact ih _ (h j hj).1

theorem isRootOf_unique (st : UFState) (j r1 r2 : Nat)
    (h1 : IsRootOf st j r1) (h2 : IsRootOf st j r2) : r1 = r2 := by
  obtain ⟨hf1, k1, hk1⟩ := h1
  obtain ⟨hf2, k2, hk2⟩ := h2
  rcases Nat.le_total k1 k2 with h | h
  · have : (st.parent)^[k2] j = r1 := by
      have : (st.parent)^[k2 - k1 + k1] j = r1 := by
        rw [Function.iterate_add_apply, hk1]
        exact Function.iterate_fixed hf1 _
      rwa [Nat.sub_add_cancel h] at this
    rw [← this, hk2]
  · have : (st.parent)^[k1] j = r2 := by
      have : (st.parent)^[k1 - k2 + k2] j = r2 := by
        rw [Function.iterate_add_apply, hk2]
        exact Function.iterate_fixed hf2 _
      rwa [Nat.sub_add_cancel h] at this
    rw [← this, hk1]

/-- Any rank witness can be normalized to one bounded by `st.n`. -/
theorem rkRaw_normalize (st : UFState) (rk : Nat → Nat) (h : RkRaw st rk) :
    ∃ rk' : Nat → Nat, RkRaw st rk' ∧ ∀ i, i < st.n → rk' i < st.n := by
  refine ⟨fun i => ((Finset.range st.n).filter (fun j => rk j < rk i)).card, ?_, ?_⟩
  · intro i hi
    refine ⟨(h i hi).1, fun hne => ?_⟩
    have hlt := (h i hi).2 hne
    apply Finset.card_lt_card
    constructor
    · intro x hx
      simp only [Finset.mem_filter, Finset.mem_range] at hx ⊢
      exact ⟨hx.1, lt_trans hx.2 hlt⟩
    · intro hsub
      have : i ∈ (Finset.range st.n).filter (fun j => rk j < rk (st.parent i)) := by
        simp only [Finset.mem_filter, Finset.mem_range]
        exact ⟨hi, hlt⟩
      have := hsub this
      simp only [Finset.mem_filter, Finset.mem_range] at this
      exact lt_irrefl _ this.2
  · intro i hi
    calc ((Finset.range st.n).filter (fun j => rk j < rk i)).card
        ≤ ((Finset.range st.n).erase i).card := by
          apply Finset.card_le_card
          intro x hx
          simp only [Finset.mem_filter, Finset.mem_range] at hx
          simp only [Finset.mem_erase, Finset.mem_range]
          refine ⟨fun hxi => ?_, hx.1⟩
          subst hxi
          exact lt_irrefl _ hx.2
      _ < (Finset.range st.n).card := by
          apply Finset.card_erase_lt_of_mem
          simpa using hi
      _ = st.n := by simp

theorem rootN_fixed (st : UFState) (fuel r : Nat) (h : st.parent r = r) :
    rootN st fuel r = r := by
  cases fuel with
  | zero => rfl
  | succ fuel => simp [rootN, h]

theorem rootN_spec (st : UFState) (rk : Nat → Nat) (hrk : RkRaw st rk)
    (hbd : ∀ i, i < st.n → rk i < st.n) :
    ∀ m j, j < st.n → st.n ≤ rk j + m → IsRootOf st j (rootN st m j) := by
  intro m
  induction m with
  | zero =>
    intro j hj hle
    exact absurd (lt_of_lt_of_le (hbd j hj) hle) (by simp)
  | succ m ih =>
    intro j hj hle
    by_cases hp : st.parent j = j
    · rw [rootN_fixed st _ j hp]
      exact ⟨hp, 0, rfl⟩
    · have h1 : rootN st (m + 1) j = rootN st m (st.parent j) := by simp [rootN, hp]
      rw [h1]
      have hpj : st.parent j < st.n := (hrk j hj).1
      have hrkj : rk j < rk (st.parent j) := (hrk j hj).2 hp
      have := ih (st.parent j) hpj (by omega)
      obtain ⟨hfix, k, hk⟩ := this
      exact ⟨hfix, k + 1, by rw [Function.iterate_succ_apply]; exact hk⟩

theorem root_isRootOf (st : UFState) (h : WF st) (j : Nat) (hj : j < st.n) :
    IsRootOf st j (st.root j) := by
  obtain ⟨rk, hrk⟩ := h
  obtain ⟨rk', hrk', hbd⟩ := rkRaw_normalize st rk hrk
  exact rootN_spec st rk' hrk' hbd st.n j hj (by omega)

theorem isRootOf_root (st : UFState) (h : WF st) (j r : Nat) (hj : j < st.n)
    (hr : IsRootOf st j r) : st.root j = r :=
  isRootOf_unique st j _ r (root_isRootOf st h j hj) hr

theorem root_parent_fix (st : UFState) (h : WF st) (j : Nat) (hj : j < st.n) :
    st.parent (st.root j) = st.root j := (root_isRootOf st h j hj).1

theorem root_lt (st : UFState) (h : WF st) (j : Nat) (hj : j < st.n) :
    st.root j < st.n := by
  obtain ⟨hfix, k, hk⟩ := root_isRootOf st h j hj
  obtain ⟨rk, hrk⟩ := h
  rw [← hk]
  exact iterate_parent_lt st rk hrk k j hj

theorem root_parent (st : UFState) (h : WF st) (j : Nat) (hj : j < st.n) :
    st.root (st.parent j) = st.root j := by
  by_cases hp : st.parent j = j
  · rw [hp]
  · have hpj : st.parent j < st.n := by
      obtain ⟨rk, hrk⟩ := h
      exact (hrk j hj).1
    obtain ⟨hfix, k, hk⟩ := root_isRootOf st h (st.parent j) hpj
    exact (isRootOf_unique st j _ _
      (root_isRootOf st h j hj)
      ⟨hfix, k + 1, by rw [Function.iterate_succ_apply]; exact hk⟩).symm

theorem root_self_of_fix (st : UFState) (j : Nat) (h : st.parent j = j) :
    st.root j = j := rootN_fixed st st.n j h

theorem root_root (st : UFState) (h : WF st) (j : Nat) (hj : j < st.n) :
    st.root (st.root j) = st.root j :=
  root_self_of_fix st _ (root_parent_fix st h j hj)

theorem setParent_self (st : UFState) (i p : Nat) : (st.setParent i p).parent i = p := by
  simp [UFState.setParent]

theorem setParent_other (st : UFState) (i p j : Nat) (h : j ≠ i) :
    (st.setParent i p).parent j = st.parent j := by
  simp [UFState.setParent, h]

/-- A parent chain ending at a fixpoint `r` survives the path-halving
rewrite `parent a := parent (parent a)`. -/
theorem chain_transfer (st : UFState) (a : Nat) (hna : st.parent a ≠ a)
    (r : Nat) (hr : st.parent r = r) :
    ∀ k x, (st.parent)^[k] x = r →
      ∃ k', ((st.setParent a (st.parent (st.parent a))).parent)^[k'] x = r := by
  intro k
  induction k using Nat.strong_induction_on with
  | _ k ih =>
    match k with
    | 0 => exact fun x hx => ⟨0, hx⟩
    | k + 1 =>
      intro x hx
      rw [Function.iterate_succ_apply] at hx
      by_cases hxa : x = a
      · subst hxa
        match k with
        | 0 =>
          simp only [Function.iterate_zero_apply] at hx
          refine ⟨1, ?_⟩
          rw [Function.iterate_one, setParent_self, hx, hr]
        | k0 + 1 =>
          rw [Function.iterate_succ_apply] at hx
          obtain ⟨k', hk'⟩ := ih k0 (by omega) _ hx
          refine ⟨k' + 1, ?_⟩
          rw [Function.iterate_succ_apply, setParent_self]
          exact hk'
      · obtain ⟨k', hk'⟩ := ih k (by omega) _ hx
        refine ⟨k' + 1, ?_⟩
        rw [Function.iterate_succ_apply, setParent_other st _ _ _ hxa]
        exact hk'

/-- Path halving preserves ranks and all roots. -/
theorem setParent_halve_spec (st : UFState) (rk : Nat → Nat) (hrk : RkRaw st rk)
    (a : Nat) (ha : a < st.n) (hna : st.parent a ≠ a) :
    RkRaw (st.setParent a (st.parent (st.parent a))) rk
      ∧ ∀ j, j < st.n → (st.setParent a (st.parent (st.parent a))).root j = st.root j := by
  have hpa : st.parent a < st.n := (hrk a ha).1
  have hgp : st.parent (st.parent a) < st.n := (hrk _ hpa).1
  have hrka : rk a < rk (st.parent a) := (hrk a ha).2 hna
  have hrkgp : rk a < rk (st.parent (st.parent a)) := by
    by_cases hfix : st.parent (st.parent a) = st.parent a
    · rw [hfix]; exact hrka
    · exact lt_trans hrka ((hrk _ hpa).2 hfix)
  have hrk' : RkRaw (st.setParent a (st.parent (st.parent a))) rk := by
    intro i hi
    simp only [UFState.setParent] at hi ⊢
    by_cases hia : i = a
    · subst hia
      simp only [if_pos rfl]
      exact ⟨hgp, fun _ => hrkgp⟩
    · simp only [if_neg hia]
      exact hrk i hi
  refine ⟨hrk', fun j hj => ?_⟩
  have hWF : WF st := ⟨rk, hrk⟩
  obtain ⟨hfix, k, hk⟩ := root_isRootOf st hWF j hj
  obtain ⟨k', hk'⟩ := chain_transfer st a hna (st.root j) hfix k j hk
  have hfix' : (st.setParent a (st.parent (st.parent a))).parent (st.root j) = st.root j := by
    rw [setParent_other st _ _ _ (fun hra => hna (by rw [← hra]; exact hfix)), hfix]
  exact isRootOf_root _ ⟨rk, hrk'⟩ j _ hj ⟨hfix', k', hk'⟩

/-- `findAux` computes the pure root, only rewrites parent pointers (keeping
every root), and preserves the rank witness. -/
theorem findAux_spec (rk : Nat → Nat) :
    ∀ (fuel : Nat) (st : UFState) (idx : Nat), RkRaw st rk → (∀ i, i < st.n → rk i < st.n) →
      idx < st.n → st.n ≤ rk idx + fuel →
      (st.findAux idx fuel).1.n = st.n
      ∧ (st.findAux idx fuel).1.gv = st.gv
      ∧ (st.findAux idx fuel).1.size = st.size
      ∧ (st.findAux idx fuel).1.weight = st.weight
      ∧ RkRaw (st.findAux idx fuel).1 rk
      ∧ (∀ j, j < st.n → (st.findAux idx fuel).1.root j = st.root j)
      ∧ (st.findAux idx fuel).2 = st.root idx := by
  intro fuel
  induction fuel with
  | zero =>
    intro st idx hrk hbd hidx hle
    exact absurd (lt_of_lt_of_le (hbd idx hidx) hle) (by simp)
  | succ fuel ih =>
    intro st idx hrk hbd hidx hle
    by_cases hp : st.parent idx = idx
    · have hstep : st.findAux idx (fuel + 1) = (st, idx) := by
        simp only [UFState.findAux, if_pos hp]
      rw [hstep]
      exact ⟨rfl, rfl, rfl, rfl, hrk, fun j _ => rfl, (root_self_of_fix st idx hp).symm⟩
    · have hstep : st.findAux idx (fuel + 1)
          = (st.setParent idx (st.parent (st.parent idx))).findAux
              (st.parent (st.parent idx)) fuel := by
        simp only [UFState.findAux, if_neg hp]
      obtain ⟨hrk', hroots'⟩ := setParent_halve_spec st rk hrk idx hidx hp
      have hpa : st.parent idx < st.n := (hrk idx hidx).1
      have hgp : st.parent (st.parent idx) < st.n := (hrk _ hpa).1
      have hrkgp : rk idx < rk (st.parent (st.parent idx)) := by
        by_cases hfix : st.parent (st.parent idx) = st.parent idx
        · rw [hfix]; exact (hrk idx hidx).2 hp
        · exact lt_trans ((hrk idx hidx).2 hp) ((hrk _ hpa).2 hfix)
      have hn' : (st.setParent idx (st.parent (st.parent idx))).n = st.n := rfl
      have := ih (st.setParent idx (st.parent (st.parent idx)))
        (st.parent (st.parent idx)) hrk' (by rw [hn']; exact hbd)
        (by rw [hn']; exact hgp) (by rw [hn']; omega)
      rw [hstep]
      obtain ⟨h1, h2, h3, h4, h5, h6, h7⟩ := this
      refine ⟨h1, h2, h3, h4, h5, ?_, ?_⟩
      · intro j hj
        rw [h6 j (by rw [hn']; exact hj), hroots' j hj]
      · rw [h7, hroots' _ hgp]
        have hWF : WF st := ⟨rk, hrk⟩
        rw [root_parent st hWF _ hpa, root_parent st hWF _ hidx]

/-- `find` (fuel `st.n`): specification on well-formed states. -/
theorem find_spec (st : UFState) (h : WF st) (idx : Nat) (hidx : idx < st.n) :
    (st.find idx).1.n = st.n
    ∧ (st.find idx).1.gv = st.gv
    ∧ (st.find idx).1.size = st.size
    ∧ (st.find idx).1.weight = st.weight
    ∧ WF (st.find idx).1
    ∧ (∀ j, j < st.n → (st.find idx).1.root j = st.root j)
    ∧ (st.find idx).2 = st.root idx := by
  obtain ⟨rk, hrk⟩ := h
  obtain ⟨rk', hrk', hbd⟩ := rkRaw_normalize st rk hrk
  obtain ⟨h1, h2, h3, h4, h5, h6, h7⟩ :=
    findAux_spec rk' st.n st idx hrk' hbd hidx (by omega)
  exact ⟨h1, h2, h3, h4, ⟨rk', h5⟩, h6, h7⟩

theorem rootN_parent_congr (st st' : UFState) (hp : ∀ a, st'.parent a = st.parent a) :
    ∀ f j, rootN st' f j = rootN st f j := by
  intro f
  induction f with
  | zero => intro j; rfl
  | succ f ih =>
    intro j
    simp only [rootN, hp]
    by_cases h : st.parent j = j
    · simp [h]
    · simp only [if_neg h]
      exact ih _

theorem root_setSize (st : UFState) (i s j : Nat) : (st.setSize i s).root j = st.root j :=
  rootN_parent_congr st (st.setSize i s) (fun _ => rfl) st.n j

theorem root_setWeight (st : UFState) (i w j : Nat) :
    (st.setWeight i w).root j = st.root j :=
  rootN_parent_congr st (st.setWeight i w) (fun _ => rfl) st.n j

/-- After linking `y` beneath `x`, everything that reached `y` reaches `x`. -/
theorem link_chain1 (st : UFState) (x y : Nat) :
    ∀ k x0, (st.parent)^[k] x0 = y → ∃ k', ((st.setParent y x).parent)^[k'] x0 = x := by
  intro k
  induction k with
  | zero =>
    intro x0 hx0
    simp only [Function.iterate_zero_apply] at hx0
    subst hx0
    exact ⟨1, by rw [Function.iterate_one, setParent_self]⟩
  | succ k ih =>
    intro x0 hx0
    rw [Function.iterate_succ_apply] at hx0
    by_cases h0 : x0 = y
    · exact ⟨1, by rw [Function.iterate_one, h0, setParent_self]⟩
    · obtain ⟨k', hk'⟩ := ih (st.parent x0) hx0
      exact ⟨k' + 1, by
        rw [Function.iterate_succ_apply, setParent_other st _ _ _ h0]; exact hk'⟩

/-- After linking `y` beneath `x`, chains to other roots are untouched. -/
theorem link_chain2 (st : UFState) (x y r : Nat) (hWF : WF st) (hyfix : st.parent y = y)
    (hr : r ≠ y) :
    ∀ k x0, x0 < st.n → st.root x0 = r → (st.parent)^[k] x0 = r →
      ∃ k', ((st.setParent y x).parent)^[k'] x0 = r := by
  intro k
  induction k with
  | zero => exact fun x0 _ _ hx0 => ⟨0, hx0⟩
  | succ k ih =>
    intro x0 h0n hroot hx0
    rw [Function.iterate_succ_apply] at hx0
    have h0y : x0 ≠ y := by
      intro h
      subst h
      rw [root_self_of_fix st _ hyfix] at hroot
      exact hr hroot.symm
    have hpn : st.parent x0 < st.n := by
      obtain ⟨rk, hrk⟩ := hWF
      exact (hrk x0 h0n).1
    have hproot : st.root (st.parent x0) = r := by
      rw [root_parent st hWF x0 h0n, hroot]
    obtain ⟨k', hk'⟩ := ih (st.parent x0) hpn hproot hx0
    exact ⟨k' + 1, by
      rw [Function.iterate_succ_apply, setParent_other st _ _ _ h0y]; exact hk'⟩

/-- Linking root `y` beneath root `x`: the new state is well-formed and the
roots update exactly by redirecting `y`'s class to `x`. -/
theorem link_root_spec (st : UFState) (rk : Nat → Nat) (hrk : RkRaw st rk)
    (hbd : ∀ i, i < st.n → rk i < st.n)
    (x y : Nat) (hx : x < st.n) (hy : y < st.n)
    (hxfix : st.parent x = x) (hyfix : st.parent y = y) (hxy : x ≠ y) :
    WF (st.setParent y x)
      ∧ ∀ j, j < st.n →
          (st.setParent y x).root j = (if st.root j = y then x else st.root j) := by
  have hWF : WF st := ⟨rk, hrk⟩
  have hrootx : st.root x = x := root_self_of_fix st x hxfix
  have hrooty : st.root y = y := root_self_of_fix st y hyfix
  have hrk' : RkRaw (st.setParent y x)
      (fun i => if st.root i = y then rk i else rk i + st.n) := by
    intro i hi
    have hi' : i < st.n := hi
    by_cases hiy : i = y
    · rw [hiy, setParent_self]
      refine ⟨hx, fun _ => ?_⟩
      show (if st.root y = y then rk y else rk y + st.n)
          < (if st.root x = y then rk x else rk x + st.n)
      rw [if_pos hrooty, hrootx, if_neg hxy]
      exact lt_of_lt_of_le (hbd y hy) (Nat.le_add_left _ _)
    · rw [setParent_other st _ _ _ hiy]
      refine ⟨(hrk i hi').1, fun hne => ?_⟩
      have hlt := (hrk i hi').2 hne
      have hpr : st.root (st.parent i) = st.root i := root_parent st hWF i hi'
      show (if st.root i = y then rk i else rk i + st.n)
          < (if st.root (st.parent i) = y then rk (st.parent i) else rk (st.parent i) + st.n)
      rw [hpr]
      by_cases hcls : st.root i = y
      · rw [if_pos hcls, if_pos hcls]
        exact hlt
      · rw [if_neg hcls, if_neg hcls]
        omega
  refine ⟨⟨_, hrk'⟩, fun j hj => ?_⟩
  by_cases hcls : st.root j = y
  · rw [if_pos hcls]
    obtain ⟨hfix, k, hk⟩ := root_isRootOf st hWF j hj
    rw [hcls] at hk
    obtain ⟨k', hk'⟩ := link_chain1 st x y k j hk
    have hxfix' : (st.setParent y x).parent x = x := by
      rw [setParent_other st _ _ _ hxy, hxfix]
    exact isRootOf_root _ ⟨_, hrk'⟩ j x hj ⟨hxfix', k', hk'⟩
  · rw [if_neg hcls]
    obtain ⟨hfix, k, hk⟩ := root_isRootOf st hWF j hj
    obtain ⟨k', hk'⟩ := link_chain2 st x y (st.root j) hWF hyfix hcls k j hj rfl hk
    have hrfix' : (st.setParent y x).parent (st.root j) = st.root j := by
      rw [setParent_other st _ _ _ hcls, hfix]
    exact isRootOf_root _ ⟨_, hrk'⟩ j _ hj ⟨hrfix', k', hk'⟩

/-- `mergeLink` specification: linking root `B` beneath root `A` keeps the
node count and names, keeps well-formedness, only raises weights, and
redirects `B`'s class to `A`. -/
theorem mergeLink_spec (stB : UFState) (hWFB : WF stB) (A B : Nat)
    (hA : A < stB.n) (hB : B < stB.n) (hAfix : stB.parent A = A)
    (hBfix : stB.parent B = B) (hAB : A ≠ B) :
    (mergeLink stB A B).n = stB.n
    ∧ (mergeLink stB A B).gv = stB.gv
    ∧ WF (mergeLink stB A B)
    ∧ (∀ j, stB.weight j ≤ (mergeLink stB A B).weight j)
    ∧ (∀ j, j < stB.n →
        (mergeLink stB A B).root j = (if stB.root j = B then A else stB.root j)) := by
  obtain ⟨rk0, hrk0⟩ := hWFB
  obtain ⟨rk, hrk, hbd⟩ := rkRaw_normalize stB rk0 hrk0
  obtain ⟨hWF3, hroots3⟩ := link_root_spec stB rk hrk hbd A B hA hB hAfix hBfix hAB
  obtain ⟨rk3, hrk3⟩ := hWF3
  refine ⟨rfl, rfl, ⟨rk3, hrk3⟩, ?_, ?_⟩
  · intro j
    show stB.weight j ≤ (if j = A then _ else _)
    by_cases hj : j = A
    · subst hj
      rw [if_pos rfl]
      exact Nat.le_add_right _ _
    · rw [if_neg hj]
      exact le_rfl
  · intro j hj
    have h4 : (mergeLink stB A B).root j = ((stB.setParent B A)).root j := by
      show ((((stB.setParent B A).setSize A _).setWeight A _)).root j = _
      rw [root_setWeight, root_setSize]
    rw [h4, hroots3 j hj]

/-- `merge` specification: node count, names and weights-positivity are
preserved, the state stays well-formed, the two arguments end up with equal
roots, and previously-equal roots stay equal. -/
theorem merge_spec (st : UFState) (h : WF st) (x y : Nat) (hx : x < st.n) (hy : y < st.n) :
    (st.merge x y).n = st.n
    ∧ (st.merge x y).gv = st.gv
    ∧ WF (st.merge x y)
    ∧ (∀ j, st.weight j ≤ (st.merge x y).weight j)
    ∧ (st.merge x y).root x = (st.merge x y).root y
    ∧ (∀ i j, i < st.n → j < st.n → st.root i = st.root j →
        (st.merge x y).root i = (st.merge x y).root j) := by
  obtain ⟨hn1, hgv1, hsz1, hw1, hWF1, hroots1, hr1⟩ := find_spec st h x hx
  have hy1 : y < (st.find x).1.n := by rw [hn1]; exact hy
  obtain ⟨hn2, hgv2, hsz2, hw2, hWF2, hroots2, hr2⟩ := find_spec (st.find x).1 hWF1 y hy1
  have hnB : ((st.find x).1.find y).1.n = st.n := by rw [hn2, hn1]
  have hgvB : ((st.find x).1.find y).1.gv = st.gv := by rw [hgv2, hgv1]
  have hwB : ((st.find x).1.find y).1.weight = st.weight := by rw [hw2, hw1]
  have hrootsB : ∀ j, j < st.n → ((st.find x).1.find y).1.root j = st.root j := by
    intro j hj
    rw [hroots2 j (by rw [hn1]; exact hj), hroots1 j hj]
  have hrx : (st.find x).2 = st.root x := hr1
  have hry : ((st.find x).1.find y).2 = st.root y := by
    rw [hr2, hroots1 y hy]
  have hm : st.merge x y
      = (if (st.find x).2 = ((st.find x).1.find y).2
         then ((st.find x).1.find y).1
         else if ((st.find x).1.find y).1.size (st.find x).2
                < ((st.find x).1.find y).1.size ((st.find x).1.find y).2
              then mergeLink ((st.find x).1.find y).1 ((st.find x).1.find y).2 (st.find x).2
              else mergeLink ((st.find x).1.find y).1 (st.find x).2
                ((st.find x).1.find y).2) := rfl
  by_cases hc : (st.find x).2 = ((st.find x).1.find y).2
  · rw [hm, if_pos hc]
    refine ⟨hnB, hgvB, hWF2, ?_, ?_, ?_⟩
    · intro j; rw [hwB]
    · rw [hrootsB x hx, hrootsB y hy, ← hrx, ← hry, hc]
    · intro i j hi hj hij
      rw [hrootsB i hi, hrootsB j hj]; exact hij
  · have hrxn : (st.find x).2 < ((st.find x).1.find y).1.n := by
      rw [hnB, hrx]; exact root_lt st h x hx
    have hryn : ((st.find x).1.find y).2 < ((st.find x).1.find y).1.n := by
      rw [hnB, hry]; exact root_lt st h y hy
    have hrxfix : ((st.find x).1.find y).1.parent (st.find x).2 = (st.find x).2 := by
      have hrt : ((st.find x).1.find y).1.root x = (st.find x).2 := by
        rw [hrootsB x hx, hrx]
      rw [← hrt]
      exact root_parent_fix _ hWF2 x (by rw [hnB]; exact hx)
    have hryfix : ((st.find x).1.find y).1.parent ((st.find x).1.find y).2
        = ((st.find x).1.find y).2 := by
      have hrt : ((st.find x).1.find y).1.root y = ((st.find x).1.find y).2 := by
        rw [hrootsB y hy, hry]
      rw [← hrt]
      exact root_parent_fix _ hWF2 y (by rw [hnB]; exact hy)
    rw [hm, if_neg hc]
    by_cases hsz : ((st.find x).1.find y).1.size (st.find x).2
        < ((st.find x).1.find y).1.size ((st.find x).1.find y).2
    · rw [if_pos hsz]
      obtain ⟨hLn, hLgv, hLWF, hLw, hLroots⟩ :=
        mergeLink_spec ((st.find x).1.find y).1 hWF2 ((st.find x).1.find y).2 (st.find x).2
          hryn hrxn hryfix hrxfix (fun he => hc he.symm)
      refine ⟨by rw [hLn, hnB], by rw [hLgv, hgvB], hLWF, ?_, ?_, ?_⟩
      · intro j
        calc st.weight j = ((st.find x).1.find y).1.weight j := by rw [hwB]
          _ ≤ _ := hLw j
      · rw [hLroots x (by rw [hnB]; exact hx), hLroots y (by rw [hnB]; exact hy)]
        rw [hrootsB x hx, hrootsB y hy, ← hrx, ← hry]
        rw [if_pos rfl, if_neg (fun he => hc he.symm)]
      · intro i j hi hj hij
        rw [hLroots i (by rw [hnB]; exact hi), hLroots j (by rw [hnB]; exact hj),
          hrootsB i hi, hrootsB j hj, hij]
    · rw [if_neg hsz]
      obtain ⟨hLn, hLgv, hLWF, hLw, hLroots⟩ :=
        mergeLink_spec ((st.find x).1.find y).1 hWF2 (st.find x).2 ((st.find x).1.find y).2
          hrxn hryn hrxfix hryfix hc
      refine ⟨by rw [hLn, hnB], by rw [hLgv, hgvB], hLWF, ?_, ?_, ?_⟩
      · intro j
        calc st.weight j = ((st.find x).1.find y).1.weight j := by rw [hwB]
          _ ≤ _ := hLw j
      · rw [hLroots x (by rw [hnB]; exact hx), hLroots y (by rw [hnB]; exact hy)]
        rw [hrootsB x hx, hrootsB y hy, ← hrx, ← hry]
        rw [if_neg hc, if_pos rfl]
      · intro i j hi hj hij
        rw [hLroots i (by rw [hnB]; exact hi), hLroots j (by rw [hnB]; exact hj),
          hrootsB i hi, hrootsB j hj, hij]

/-! ### Node construction and the merge phase -/

theorem nodeWeight_pos (g : PGlobal) : 1 ≤ nodeWeight g := by
  unfold nodeWeight
  cases g.func? with
  | none => exact le_rfl
  | some F => exact getFunctionWeight_pos F

theorem buildNodes_append (M : List PGlobal) (g : PGlobal) :
    buildNodes (M ++ [g])
      = if partitionable g then (buildNodes M).make g.name (nodeWeight g)
        else buildNodes M := by
  unfold buildNodes
  rw [List.foldl_append]
  rfl

/-- `buildNodes` creates exactly one node per partitionable definition, in
module order, with identity parents, the global's name, and its node
weight. -/
theorem buildNodes_spec (M : List PGlobal) :
    (buildNodes M).n = (M.filter partitionable).length
    ∧ (∀ k, k < (M.filter partitionable).length →
        (buildNodes M).gv k = ((M.filter partitionable).getD k default).name
          ∧ (buildNodes M).weight k = nodeWeight ((M.filter partitionable).getD k default))
    ∧ (∀ k, (buildNodes M).parent k = k) := by
  induction M using List.reverseRecOn with
  | nil => exact ⟨rfl, fun k hk => absurd hk (by simp), fun k => rfl⟩
  | append_singleton M g ih =>
    obtain ⟨ih1, ih2, ih3⟩ := ih
    rw [buildNodes_append]
    have hfl : (M ++ [g]).filter partitionable
        = M.filter partitionable ++ (if partitionable g then [g] else []) := by
      rw [List.filter_append]
      congr 1
      by_cases hg : partitionable g <;> simp [hg]
    by_cases hg : partitionable g
    · rw [if_pos hg]
      rw [hfl, if_pos hg]
      have hlen : (M.filter partitionable ++ [g]).length
          = (M.filter partitionable).length + 1 := by simp
      refine ⟨by simp [UFState.make, ih1], ?_, ?_⟩
      · intro k hk
        rw [hlen] at hk
        by_cases hke : k = (M.filter partitionable).length
        · constructor
          · show (if k = (buildNodes M).n then g.name else (buildNodes M).gv k) = _
            rw [if_pos (by rw [ih1, hke]), hke,
              List.getD_append_right _ _ _ _ (le_refl _)]
            simp
          · show (if k = (buildNodes M).n then nodeWeight g else (buildNodes M).weight k) = _
            rw [if_pos (by rw [ih1, hke]), hke,
              List.getD_append_right _ _ _ _ (le_refl _)]
            simp
        · have hk' : k < (M.filter partitionable).length := by omega
          have hne : ¬ k = (buildNodes M).n := by rw [ih1]; exact hke
          constructor
          · show (if k = (buildNodes M).n then g.name else (buildNodes M).gv k) = _
            rw [if_neg hne, List.getD_append _ _ _ _ hk']
            exact (ih2 k hk').1
          · show (if k = (buildNodes M).n then nodeWeight g else (buildNodes M).weight k) = _
            rw [if_neg hne, List.getD_append _ _ _ _ hk']
            exact (ih2 k hk').2
      · intro k
        show (if k = (buildNodes M).n then (buildNodes M).n else (buildNodes M).parent k) = k
        by_cases hke : k = (buildNodes M).n
        · rw [if_pos hke, hke]
        · rw [if_neg hke]; exact ih3 k
    · rw [if_neg hg, hfl, if_neg hg, List.append_nil]
      exact ⟨ih1, ih2, ih3⟩

theorem buildNodes_WF (M : List PGlobal) : WF (buildNodes M) := by
  refine ⟨fun _ => 0, fun i hi => ?_⟩
  rw [(buildNodes_spec M).2.2 i]
  exact ⟨hi, fun hne => absurd rfl hne⟩

theorem buildNodes_root (M : List PGlobal) (j : Nat) : (buildNodes M).root j = j :=
  root_self_of_fix _ j ((buildNodes_spec M).2.2 j)

theorem nodeIdx?_lt (st : UFState) (nm : String) (i : Nat)
    (h : st.nodeIdx? nm = some i) : i < st.n := by
  unfold UFState.nodeIdx? at h
  have := List.mem_of_find?_eq_some h
  simpa using this

theorem nodeIdx?_gv (st : UFState) (nm : String) (i : Nat)
    (h : st.nodeIdx? nm = some i) : st.gv i = nm := by
  unfold UFState.nodeIdx? at h
  simpa using List.find?_some h

/-- When some node `i < st.n` carries `nm` and node names are injective,
`nodeIdx?` finds exactly `i`. -/
theorem nodeIdx?_eq_some (st : UFState) (nm : String) (i : Nat) (hi : i < st.n)
    (hgv : st.gv i = nm)
    (hinj : ∀ a b, a < st.n → b < st.n → st.gv a = st.gv b → a = b) :
    st.nodeIdx? nm = some i := by
  have hsome : (st.nodeIdx? nm).isSome := by
    unfold UFState.nodeIdx?
    rw [List.find?_isSome]
    exact ⟨i, by simpa using hi, by simpa using hgv⟩
  obtain ⟨j, hj⟩ := Option.isSome_iff_exists.mp hsome
  have hjlt := nodeIdx?_lt st nm j hj
  have hjgv := nodeIdx?_gv st nm j hj
  rw [hj, hinj j i hjlt hi (by rw [hjgv, hgv])]

theorem nodeIdx?_congr (st st' : UFState) (hn : st.n = st'.n)
    (hgv : ∀ j, st.gv j = st'.gv j) (nm : String) :
    st.nodeIdx? nm = st'.nodeIdx? nm := by
  unfold UFState.nodeIdx?
  rw [hn]
  congr 1
  funext i
  rw [hgv i]

theorem userIdxs_lt (M : List PGlobal) (st : UFState) (nm : String) :
    ∀ u ∈ userIdxs M st nm, u < st.n := by
  intro u hu
  unfold userIdxs at hu
  obtain ⟨g, _, hgu⟩ := List.mem_filterMap.mp hu
  by_cases hmem : nm ∈ g.refs
  · rw [if_pos hmem] at hgu
    exact nodeIdx?_lt st _ u hgu
  · rw [if_neg hmem] at hgu
    cases hgu

theorem userIdxs_congr (M : List PGlobal) (st st' : UFState) (hn : st.n = st'.n)
    (hgv : ∀ j, st.gv j = st'.gv j) (nm : String) :
    userIdxs M st nm = userIdxs M st' nm := by
  unfold userIdxs
  congr 1
  funext g
  rw [nodeIdx?_congr st st' hn hgv]

theorem merge_MB (n0 : Nat) (gvf : Nat → String) (st : UFState) (x y : Nat)
    (h : MB n0 gvf st) (hx : x < n0) (hy : y < n0) :
    MB n0 gvf (st.merge x y)
    ∧ (∀ a b, a < n0 → b < n0 → st.root a = st.root b →
        (st.merge x y).root a = (st.merge x y).root b)
    ∧ (st.merge x y).root x = (st.merge x y).root y := by
  obtain ⟨hn, hgv, hWF, hw⟩ := h
  obtain ⟨mn, mgv, mWF, mw, mxy, mmono⟩ :=
    merge_spec st hWF x y (by rw [hn]; exact hx) (by rw [hn]; exact hy)
  refine ⟨⟨by rw [mn, hn], fun j => by rw [mgv]; exact hgv j, mWF,
      fun j hj => le_trans (hw j hj) (mw j)⟩, ?_, mxy⟩
  intro a b ha hb hab
  exact mmono a b (by rw [hn]; exact ha) (by rw [hn]; exact hb) hab

theorem foldl_merge_MB (n0 : Nat) (gvf : Nat → String) (i : Nat) (hi : i < n0) :
    ∀ (us : List Nat) (st : UFState), (∀ u ∈ us, u < n0) → MB n0 gvf st →
      MB n0 gvf (us.foldl (fun st2 u => st2.merge i u) st)
      ∧ (∀ a b, a < n0 → b < n0 → st.root a = st.root b →
          (us.foldl (fun st2 u => st2.merge i u) st).root a
            = (us.foldl (fun st2 u => st2.merge i u) st).root b) := by
  intro us
  induction us with
  | nil => exact fun st _ h => ⟨h, fun a b _ _ hab => hab⟩
  | cons u us ih =>
    intro st hus h
    obtain ⟨h1, h2, _⟩ := merge_MB n0 gvf st i u h hi (hus u (by simp))
    simp only [List.foldl_cons]
    obtain ⟨ih1, ih2⟩ := ih (st.merge i u) (fun v hv => hus v (by simp [hv])) h1
    exact ⟨ih1, fun a b ha hb hab => ih2 a b ha hb (h2 a b ha hb hab)⟩

theorem mergePhase_fold_MB (M : List PGlobal) (n0 : Nat) (gvf : Nat → String) :
    ∀ (l : List Nat) (st : UFState), (∀ i ∈ l, i < n0) → MB n0 gvf st →
      MB n0 gvf (l.foldl
        (fun st i => (userIdxs M st (st.gv i)).foldl (fun st2 u => st2.merge i u) st) st)
      ∧ (∀ a b, a < n0 → b < n0 → st.root a = st.root b →
          (l.foldl (fun st i =>
              (userIdxs M st (st.gv i)).foldl (fun st2 u => st2.merge i u) st) st).root a
            = (l.foldl (fun st i =>
              (userIdxs M st (st.gv i)).foldl (fun st2 u => st2.merge i u) st) st).root b) := by
  intro l
  induction l with
  | nil => exact fun st _ h => ⟨h, fun a b _ _ hab => hab⟩
  | cons i l ih =>
    intro st hl h
    simp only [List.foldl_cons]
    have hi : i < n0 := hl i (by simp)
    have husbd : ∀ u ∈ userIdxs M st (st.gv i), u < n0 := by
      intro u hu
      have := userIdxs_lt M st (st.gv i) u hu
      rw [h.1] at this
      exact this
    obtain ⟨h1, h2⟩ := foldl_merge_MB n0 gvf i hi (userIdxs M st (st.gv i)) st husbd h
    obtain ⟨ih1, ih2⟩ := ih _ (fun j hj => hl j (by simp [hj])) h1
    exact ⟨ih1, fun a b ha hb hab => ih2 a b ha hb (h2 a b ha hb hab)⟩

theorem mergePhase_MB (M : List PGlobal) (n0 : Nat) (gvf : Nat → String)
    (st0 : UFState) (h : MB n0 gvf st0) : MB n0 gvf (mergePhase M st0) := by
  unfold mergePhase
  refine (mergePhase_fold_MB M n0 gvf (List.range st0.n) st0 ?_ h).1
  intro i hi
  rw [← h.1]
  simpa using hi

/-- The merge loop joins each node with each of its users: if node `iA` is a
user of node `iB`, their components coincide after the merge phase. -/
theorem mergePhase_connects (M : List PGlobal) (n0 : Nat) (gvf : Nat → String)
    (st0 : UFState) (h : MB n0 gvf st0) (iA iB : Nat) (hiA : iA < n0) (hiB : iB < n0)
    (hedge : iA ∈ userIdxs M st0 (gvf iB)) :
    (mergePhase M st0).root iA = (mergePhase M st0).root iB := by
  have hn0 : st0.n = n0 := h.1
  have hiB' : iB ∈ List.range st0.n := by rw [hn0]; simpa using hiB
  obtain ⟨l1, l2, hsplit⟩ := List.mem_iff_append.mp hiB'
  have hsub : ∀ i ∈ List.range st0.n, i < n0 := by
    intro i hi
    rw [← hn0]
    simpa using hi
  unfold mergePhase
  rw [hsplit, List.foldl_append, List.foldl_cons]
  have hl1 : ∀ i ∈ l1, i < n0 := fun i hi => hsub i (by rw [hsplit]; simp [hi])
  have hl2 : ∀ i ∈ l2, i < n0 := fun i hi => hsub i (by rw [hsplit]; simp [hi])
  obtain ⟨hMB1, _⟩ := mergePhase_fold_MB M n0 gvf l1 st0 hl1 h
  set stA := l1.foldl
    (fun st i => (userIdxs M st (st.gv i)).foldl (fun st2 u => st2.merge i u) st) st0 with hstA
  have hgvA : stA.gv iB = gvf iB := hMB1.2.1 iB
  have husA : userIdxs M stA (stA.gv iB) = userIdxs M st0 (gvf iB) := by
    rw [hgvA]
    exact userIdxs_congr M stA st0 (by rw [hMB1.1, hn0]) (fun j => by rw [hMB1.2.1 j, h.2.1 j]) _
  obtain ⟨u1, u2, husplit⟩ := List.mem_iff_append.mp (husA ▸ hedge)
  have husbd : ∀ u ∈ userIdxs M stA (stA.gv iB), u < n0 := by
    intro u hu
    have := userIdxs_lt M stA (stA.gv iB) u hu
    rw [hMB1.1] at this
    exact this
  have hu1 : ∀ u ∈ u1, u < n0 := fun u hu => husbd u (by rw [husplit]; simp [hu])
  have hu2 : ∀ u ∈ u2, u < n0 := fun u hu => husbd u (by rw [husplit]; simp [hu])
  rw [husplit, List.foldl_append, List.foldl_cons]
  obtain ⟨hMB2, _⟩ := foldl_merge_MB n0 gvf iB hiB u1 stA hu1 hMB1
  set stB := u1.foldl (fun st2 u => st2.merge iB u) stA with hstB
  obtain ⟨hMB3, _, hconn⟩ := merge_MB n0 gvf stB iB iA hMB2 hiB hiA
  obtain ⟨hMB4, hmono4⟩ := foldl_merge_MB n0 gvf iB hiB u2 (stB.merge iB iA) hu2 hMB3
  have hstep : (stB.merge iB iA).root iA = (stB.merge iB iA).root iB := hconn.symm
  have after2 := hmono4 iA iB hiA hiB hstep
  obtain ⟨_, hmono5⟩ := mergePhase_fold_MB M n0 gvf l2 _ hl2 hMB4
  exact hmono5 iA iB hiA hiB after2

/-! ### Sorting, minimum selection, and counting helpers -/

theorem insertDesc_perm (w : Nat → Nat) (x : Nat) (l : List Nat) :
    (insertDesc w x l).Perm (x :: l) := by
  induction l with
  | nil => exact List.Perm.refl _
  | cons y ys ih =>
    unfold insertDesc
    by_cases h : w x > w y
    · rw [if_pos h]
    · rw [if_neg h]
      exact (ih.cons y).trans (List.Perm.swap x y ys)

theorem sortDesc_perm (w : Nat → Nat) (l : List Nat) : (sortDesc w l).Perm l := by
  induction l with
  | nil => exact List.Perm.refl _
  | cons a l ih =>
    show (insertDesc w a (sortDesc w l)).Perm (a :: l)
    exact (insertDesc_perm w a _).trans (ih.cons a)

theorem insertDesc_sorted (w : Nat → Nat) (x : Nat) (l : List Nat)
    (h : l.Pairwise (fun a b => w b ≤ w a)) :
    (insertDesc w x l).Pairwise (fun a b => w b ≤ w a) := by
  induction l with
  | nil => simp [insertDesc]
  | cons y ys ih =>
    unfold insertDesc
    by_cases hxy : w x > w y
    · rw [if_pos hxy]
      refine List.Pairwise.cons ?_ h
      intro z hz
      rcases List.mem_cons.mp hz with hz | hz
      · subst hz; omega
      · have := (List.pairwise_cons.mp h).1 z hz
        omega
    · rw [if_neg hxy]
      refine List.Pairwise.cons ?_ (ih (List.pairwise_cons.mp h).2)
      intro z hz
      have hz' : z ∈ x :: ys := (insertDesc_perm w x ys).mem_iff.mp hz
      rcases List.mem_cons.mp hz' with hz' | hz'
      · subst hz'; omega
      · exact (List.pairwise_cons.mp h).1 z hz'

theorem sortDesc_sorted (w : Nat → Nat) (l : List Nat) :
    (sortDesc w l).Pairwise (fun a b => w b ≤ w a) := by
  induction l with
  | nil => simp [sortDesc]
  | cons a l ih => exact insertDesc_sorted w a _ ih

theorem minIdx_fold_spec (parts : List Partition) :
    ∀ (l : List Nat) (best : Nat), best < parts.length → (∀ j ∈ l, j < parts.length) →
      (l.foldl (fun best j =>
          if (parts.getD j default).weight < (parts.getD best default).weight then j
          else best) best) < parts.length
      ∧ (parts.getD (l.foldl (fun best j =>
          if (parts.getD j default).weight < (parts.getD best default).weight then j
          else best) best) default).weight ≤ (parts.getD best default).weight
      ∧ (∀ j ∈ l, (parts.getD (l.foldl (fun best j =>
          if (parts.getD j default).weight < (parts.getD best default).weight then j
          else best) best) default).weight ≤ (parts.getD j default).weight) := by
  intro l
  induction l with
  | nil => exact fun best hb _ => ⟨hb, le_rfl, by simp⟩
  | cons j l ih =>
    intro best hb hl
    simp only [List.foldl_cons]
    by_cases hlt : (parts.getD j default).weight < (parts.getD best default).weight
    · rw [if_pos hlt]
      obtain ⟨h1, h2, h3⟩ := ih j (hl j (by simp)) (fun a ha => hl a (by simp [ha]))
      refine ⟨h1, le_trans h2 (le_of_lt hlt), ?_⟩
      intro a ha
      rcases List.mem_cons.mp ha with ha | ha
      · subst ha; exact h2
      · exact h3 a ha
    · rw [if_neg hlt]
      obtain ⟨h1, h2, h3⟩ := ih best hb (fun a ha => hl a (by simp [ha]))
      refine ⟨h1, h2, ?_⟩
      intro a ha
      rcases List.mem_cons.mp ha with ha | ha
      · subst ha; omega
      · exact h3 a ha

theorem minIdx_spec (parts : List Partition) (h : 0 < parts.length) :
    minIdx parts < parts.length
    ∧ ∀ j, j < parts.length →
        (parts.getD (minIdx parts) default).weight ≤ (parts.getD j default).weight := by
  obtain ⟨h1, _, h3⟩ := minIdx_fold_spec parts (List.range parts.length) 0 h
    (fun j hj => by simpa using hj)
  exact ⟨h1, fun j hj => h3 j (by simpa using hj)⟩

theorem getD_set_self (l : List Partition) (q : Nat) (hq : q < l.length) (P : Partition) :
    (l.set q P).getD q default = P := by
  rw [List.getD_eq_getElem?_getD, List.getElem?_set_self (by simpa using hq)]
  rfl

theorem getD_set_other (l : List Partition) (q q' : Nat) (hne : q' ≠ q) (P : Partition) :
    (l.set q P).getD q' default = l.getD q' default := by
  rw [List.getD_eq_getElem?_getD, List.getElem?_set_ne (fun he => hne he.symm),
    ← List.getD_eq_getElem?_getD]

theorem count_flatten_set {α : Type} [BEq α] :
    ∀ (L : List (List α)) (q : Nat), q < L.length → ∀ (y : List α) (x : α),
      ((L.set q y).flatten).count x + (L.getD q []).count x
        = (L.flatten).count x + y.count x := by
  intro L
  induction L with
  | nil => intro q hq; simp at hq
  | cons h t ih =>
    intro q hq y x
    cases q with
    | zero =>
      simp only [List.set_cons_zero, List.flatten_cons, List.count_append, List.getD_cons_zero]
      omega
    | succ q =>
      simp only [List.set_cons_succ, List.flatten_cons, List.count_append,
        List.getD_cons_succ]
      have := ih q (by simpa using hq) y x
      omega

/-- Inserting an element at partition `q` adds exactly that element to the
flattened projection. -/
theorem count_proj_set (parts : List Partition) (proj : Partition → List (String × Bool))
    (q : Nat) (hq : q < parts.length) (P' : Partition) (e : String × Bool)
    (he : proj P' = e :: proj (parts.getD q default)) (x : String × Bool) :
    (((parts.set q P').map proj).flatten).count x
      = (if x = e then 1 else 0) + (((parts.map proj).flatten).count x) := by
  have hmap : (parts.set q P').map proj = (parts.map proj).set q (proj P') := by
    rw [List.map_set]
  rw [hmap, he]
  have := count_flatten_set (parts.map proj) q (by simpa using hq)
    (e :: proj (parts.getD q default)) x
  have hgd : (parts.map proj).getD q [] = proj (parts.getD q default) := by
    rw [List.getD_eq_getElem?_getD, List.getD_eq_getElem?_getD, List.getElem?_map,
      List.getElem?_eq_getElem hq]
    rfl
  rw [hgd] at this
  by_cases hx : x = e
  · subst hx
    rw [if_pos rfl]
    rw [List.count_cons_self] at this
    omega
  · rw [if_neg hx]
    rw [List.count_cons_of_ne hx] at this
    omega

/-- Same for the id-table projections. -/
theorem count_projN_set (parts : List Partition) (proj : Partition → List (String × Nat))
    (q : Nat) (hq : q < parts.length) (P' : Partition) (pre : List (String × Nat))
    (he : proj P' = pre ++ proj (parts.getD q default)) (x : String × Nat) :
    (((parts.set q P').map proj).flatten).count x
      = pre.count x + (((parts.map proj).flatten).count x) := by
  have hmap : (parts.set q P').map proj = (parts.map proj).set q (proj P') := by
    rw [List.map_set]
  rw [hmap, he]
  have := count_flatten_set (parts.map proj) q (by simpa using hq)
    (pre ++ proj (parts.getD q default)) x
  have hgd : (parts.map proj).getD q [] = proj (parts.getD q default) := by
    rw [List.getD_eq_getElem?_getD, List.getD_eq_getElem?_getD, List.getElem?_map,
      List.getElem?_eq_getElem hq]
    rfl
  rw [hgd] at this
  simp only [List.count_append] at this
  omega

theorem filter_insert_perm :
    ∀ (l : List Nat), l.Nodup → ∀ (i : Nat), i ∈ l → ∀ (p p' : Nat → Bool),
      p' i = true → p i = false → (∀ j, j ≠ i → p' j = p j) →
      (l.filter p').Perm (i :: l.filter p) := by
  intro l
  induction l with
  | nil => intro _ i hi; cases hi
  | cons a l ih =>
    intro hnd i hi p p' hp'i hpi hagree
    rcases List.mem_cons.mp hi with hia | hil
    · subst hia
      have hfl : l.filter p' = l.filter p := by
        apply List.filter_congr
        intro j hj
        exact hagree j (fun hji => (List.nodup_cons.mp hnd).1 (hji ▸ hj))
      rw [List.filter_cons, if_pos hp'i, List.filter_cons,
        if_neg (by rw [hpi]; simp), hfl]
    · have hai : a ≠ i := fun hai => (List.nodup_cons.mp hnd).1 (hai ▸ hil)
      have hpa : p' a = p a := hagree a hai
      have ihp := ih (List.nodup_cons.mp hnd).2 i hil p p' hp'i hpi hagree
      rw [List.filter_cons, List.filter_cons, hpa]
      by_cases hcase : p a = true
      · rw [if_pos hcase, if_pos hcase]
        exact (ihp.cons a).trans (List.Perm.swap i a _)
      · rw [if_neg hcase, if_neg hcase]
        exact ihp

/-- Zeroing the weight of a not-yet-zero node prepends it to the zeroed set
(up to permutation). -/
theorem zeroedList_insert (n : Nat) (w : Nat → Nat) (i : Nat) (hi : i < n)
    (hwi : w i ≠ 0) :
    (zeroedList n (fun j => if j = i then 0 else w j)).Perm (i :: zeroedList n w) := by
  unfold zeroedList
  apply filter_insert_perm (List.range n) (List.nodup_range n) i (by simpa using hi)
  · simp
  · simpa using hwi
  · intro j hj
    simp [hj]

theorem insertEntries_globals (fvarsL gvarsL : List String) (nm : String) (P : Partition) :
    (insertEntries fvarsL gvarsL nm P).globals = (nm, true) :: P.globals := by
  unfold insertEntries
  cases flatId? fvarsL nm <;> cases flatId? gvarsL nm <;> rfl

theorem insertEntries_fvars (fvarsL gvarsL : List String) (nm : String) (P : Partition) :
    (insertEntries fvarsL gvarsL nm P).fvars
      = ((flatId? fvarsL nm).map (fun k => (nm, k))).toList ++ P.fvars := by
  unfold insertEntries
  cases flatId? fvarsL nm <;> cases flatId? gvarsL nm <;> rfl

theorem insertEntries_gvars (fvarsL gvarsL : List String) (nm : String) (P : Partition) :
    (insertEntries fvarsL gvarsL nm P).gvars
      = ((flatId? gvarsL nm).map (fun k => (nm, k))).toList ++ P.gvars := by
  unfold insertEntries
  cases flatId? fvarsL nm <;> cases flatId? gvarsL nm <;> rfl

theorem insertEntries_weight (fvarsL gvarsL : List String) (nm : String) (P : Partition) :
    (insertEntries fvarsL gvarsL nm P).weight = P.weight := by
  unfold insertEntries
  cases flatId? fvarsL nm <;> cases flatId? gvarsL nm <;> rfl

/-! ### The assignment loop invariant -/

theorem WF_of_parent_eq (st st' : UFState) (hn : st'.n = st.n)
    (hp : ∀ a, st'.parent a = st.parent a) (h : WF st) : WF st' := by
  obtain ⟨rk, hrk⟩ := h
  refine ⟨rk, fun i hi => ?_⟩
  rw [hn] at hi
  obtain ⟨h1, h2⟩ := hrk i hi
  refine ⟨by rw [hp i, hn]; exact h1, fun hne => ?_⟩
  rw [hp i] at hne ⊢
  exact h2 hne

theorem root_of_parent_eq (st st' : UFState) (hn : st'.n = st.n)
    (hp : ∀ a, st'.parent a = st.parent a) (j : Nat) : st'.root j = st.root j := by
  unfold UFState.root
  rw [rootN_parent_congr st st' hp st'.n j, hn]

theorem filterMap_cons_toList {α β : Type} (f : α → Option β) (a : α) (l : List α) :
    (a :: l).filterMap f = (f a).toList ++ l.filterMap f := by
  cases h : f a <;> simp [List.filterMap_cons, h]

theorem perm_count_eq {α : Type} [BEq α] {l1 l2 : List α} (h : l1.Perm l2) (a : α) :
    l1.count a = l2.count a := by
  induction h with
  | nil => rfl
  | cons x h ih => simp only [List.count_cons, ih]
  | swap x y l => simp only [List.count_cons]; omega
  | trans h1 h2 ih1 ih2 => exact ih1.trans ih2

theorem count_allGlobals_set (parts : List Partition) (q : Nat) (hq : q < parts.length)
    (P' : Partition) (e : String × Bool)
    (he : P'.globals = e :: (parts.getD q default).globals) (x : String × Bool) :
    (allGlobals (parts.set q P')).count x
      = (if x = e then 1 else 0) + (allGlobals parts).count x :=
  count_proj_set parts (fun p => p.globals) q hq P' e he x

theorem count_allFvars_set (parts : List Partition) (q : Nat) (hq : q < parts.length)
    (P' : Partition) (pre : List (String × Nat))
    (he : P'.fvars = pre ++ (parts.getD q default).fvars) (x : String × Nat) :
    (allFvars (parts.set q P')).count x = pre.count x + (allFvars parts).count x :=
  count_projN_set parts (fun p => p.fvars) q hq P' pre he x

theorem count_allGvars_set (parts : List Partition) (q : Nat) (hq : q < parts.length)
    (P' : Partition) (pre : List (String × Nat))
    (he : P'.gvars = pre ++ (parts.getD q default).gvars) (x : String × Nat) :
    (allGvars (parts.set q P')).count x = pre.count x + (allGvars parts).count x :=
  count_projN_set parts (fun p => p.gvars) q hq P' pre he x

/-- The common effect of inserting node `z` (not previously assigned) into
partition `q` while zeroing its weight and repurposing its `size` slot: all
non-partition state facts are preserved, the weight/size tables update
pointwise, partition membership only grows, and all three count invariants
carry over. -/
theorem AUpd_spec
    (n T : Nat) (gvf : Nat → String) (R : Nat → Nat) (fvarsL gvarsL : List String)
    (stX : UFState) (partsX : List Partition)
    (hXn : stX.n = n) (hXgv : ∀ j, stX.gv j = gvf j) (hXWF : WF stX)
    (hXroot : ∀ j, j < n → stX.root j = R j) (hXlen : partsX.length = T)
    (hXcnt : ∀ x, (allGlobals partsX).count x
        = ((zeroedList n stX.weight).map (fun j => (gvf j, true))).count x)
    (hXfcnt : ∀ x, (allFvars partsX).count x
        = ((zeroedList n stX.weight).filterMap
            (fun j => (flatId? fvarsL (gvf j)).map (fun k => (gvf j, k)))).count x)
    (hXgcnt : ∀ x, (allGvars partsX).count x
        = ((zeroedList n stX.weight).filterMap
            (fun j => (flatId? gvarsL (gvf j)).map (fun k => (gvf j, k)))).count x)
    (z : Nat) (hz : z < n) (hzw : stX.weight z ≠ 0)
    (q : Nat) (hq : q < T)
    (P' : Partition)
    (hP'g : P'.globals = (gvf z, true) :: (partsX.getD q default).globals)
    (hP'f : P'.fvars = ((flatId? fvarsL (gvf z)).map (fun k => (gvf z, k))).toList
        ++ (partsX.getD q default).fvars)
    (hP'v : P'.gvars = ((flatId? gvarsL (gvf z)).map (fun k => (gvf z, k))).toList
        ++ (partsX.getD q default).gvars) :
    ((stX.setWeight z 0).setSize z q).n = n
    ∧ (∀ j, ((stX.setWeight z 0).setSize z q).gv j = gvf j)
    ∧ WF ((stX.setWeight z 0).setSize z q)
    ∧ (∀ j, j < n → ((stX.setWeight z 0).setSize z q).root j = R j)
    ∧ (partsX.set q P').length = T
    ∧ (∀ j, ((stX.setWeight z 0).setSize z q).weight j
        = if j = z then 0 else stX.weight j)
    ∧ (∀ j, ((stX.setWeight z 0).setSize z q).size j = if j = z then q else stX.size j)
    ∧ (∀ q0 e, e ∈ (partsX.getD q0 default).globals
        → e ∈ ((partsX.set q P').getD q0 default).globals)
    ∧ (gvf z, true) ∈ ((partsX.set q P').getD q default).globals
    ∧ (∀ x, (allGlobals (partsX.set q P')).count x
        = ((zeroedList n ((stX.setWeight z 0).setSize z q).weight).map
            (fun j => (gvf j, true))).count x)
    ∧ (∀ x, (allFvars (partsX.set q P')).count x
        = ((zeroedList n ((stX.setWeight z 0).setSize z q).weight).filterMap
            (fun j => (flatId? fvarsL (gvf j)).map (fun k => (gvf j, k)))).count x)
    ∧ (∀ x, (allGvars (partsX.set q P')).count x
        = ((zeroedList n ((stX.setWeight z 0).setSize z q).weight).filterMap
            (fun j => (flatId? gvarsL (gvf j)).map (fun k => (gvf j, k)))).count x) := by
  have hqlen : q < partsX.length := by rw [hXlen]; exact hq
  have hperm : (zeroedList n ((stX.setWeight z 0).setSize z q).weight).Perm
      (z :: zeroedList n stX.weight) := zeroedList_insert n stX.weight z hz hzw
  refine ⟨hXn, hXgv, ?_, ?_, by simp [hXlen], fun j => rfl, fun j => rfl, ?_, ?_, ?_, ?_, ?_⟩
  · exact WF_of_parent_eq stX _ rfl (fun a => rfl) hXWF
  · intro j hj
    rw [root_of_parent_eq stX ((stX.setWeight z 0).setSize z q) rfl (fun a => rfl) j]
    exact hXroot j hj
  · intro q0 e he
    by_cases hq0 : q0 = q
    · subst hq0
      rw [getD_set_self partsX q0 hqlen P', hP'g]
      exact List.mem_cons_of_mem _ he
    · rw [getD_set_other partsX q q0 hq0 P']
      exact he
  · rw [getD_set_self partsX q hqlen P', hP'g]
    exact List.mem_cons_self _ _
  · intro x
    rw [count_allGlobals_set partsX q hqlen P' (gvf z, true) hP'g x,
      perm_count_eq (hperm.map (fun j => (gvf j, true))) x, List.map_cons, hXcnt x]
    by_cases hx : x = (gvf z, true)
    · rw [if_pos hx, hx, List.count_cons_self]
      omega
    · rw [if_neg hx, List.count_cons_of_ne hx]
      omega
  · intro x
    rw [count_allFvars_set partsX q hqlen P' _ hP'f x,
      perm_count_eq
        (hperm.filterMap (fun j => (flatId? fvarsL (gvf j)).map (fun k => (gvf j, k)))) x,
      filterMap_cons_toList, List.count_append, hXfcnt x]
  · intro x
    rw [count_allGvars_set partsX q hqlen P' _ hP'v x,
      perm_count_eq
        (hperm.filterMap (fun j => (flatId? gvarsL (gvf j)).map (fun k => (gvf j, k)))) x,
      filterMap_cons_toList, List.count_append, hXgcnt x]

/-- One step of the assignment loop preserves the master invariant, with the
processed index removed from the remaining set. -/
theorem assignStep_inv
    (n T : Nat) (gvf : Nat → String) (R W : Nat → Nat) (fvarsL gvarsL : List String)
    (hT : 0 < T) (hW : ∀ j, j < n → 1 ≤ W j)
    (hR : ∀ j, j < n → R j < n ∧ R (R j) = R j)
    (i : Nat) (hi : i < n) (rem' : List Nat) (hinotin : i ∉ rem')
    (st : UFState) (parts : List Partition)
    (h : AInv n T gvf R W fvarsL gvarsL (i :: rem') (st, parts)) :
    AInv n T gvf R W fvarsL gvarsL rem' (assignStep fvarsL gvarsL (st, parts) i) := by
  obtain ⟨hn, hgv, hWF, hroot, hlen, hw, hrem, hdone, hplace, hcnt, hfcnt, hgcnt⟩ := h
  have hi' : i < st.n := by rw [hn]; exact hi
  obtain ⟨fn, fgv, fsz, fw, fWF, froots, fr⟩ := find_spec st hWF i hi'
  set A := (st.find i).1 with hA
  set r := (st.find i).2 with hrdef
  have hAn : A.n = n := by rw [fn, hn]
  have hAgv : ∀ j, A.gv j = gvf j := fun j => by rw [fgv]; exact hgv j
  have hAroot : ∀ j, j < n → A.root j = R j := by
    intro j hj
    rw [froots j (by rw [hn]; exact hj)]
    exact hroot j hj
  have hrRi : r = R i := by rw [fr]; exact hroot i hi
  have hRi_lt : R i < n := (hR i hi).1
  have hRR : R (R i) = R i := (hR i hi).2
  have hRr : R r = r := by rw [hrRi, hRR]
  have hr_lt : r < n := by rw [hrRi]; exact hRi_lt
  have hAcnt : ∀ x, (allGlobals parts).count x
      = ((zeroedList n A.weight).map (fun j => (gvf j, true))).count x := by
    intro x; rw [fw]; exact hcnt x
  have hAfcnt : ∀ x, (allFvars parts).count x
      = ((zeroedList n A.weight).filterMap
          (fun j => (flatId? fvarsL (gvf j)).map (fun k => (gvf j, k)))).count x := by
    intro x; rw [fw]; exact hfcnt x
  have hAgcnt : ∀ x, (allGvars parts).count x
      = ((zeroedList n A.weight).filterMap
          (fun j => (flatId? gvarsL (gvf j)).map (fun k => (gvf j, k)))).count x := by
    intro x; rw [fw]; exact hgcnt x
  have hred : assignStep fvarsL gvarsL (st, parts) i
      = assignChild fvarsL gvarsL (assignRoot fvarsL gvarsL (A, parts) r) r i := rfl
  rw [hred]
  by_cases hwr : A.weight r ≠ 0
  · -- branch 1 fires
    have hstwr : st.weight r ≠ 0 := by rw [← fw]; exact hwr
    have hq := minIdx_spec parts (by rw [hlen]; exact hT)
    set q := minIdx parts with hqdef
    have hqT : q < T := by rw [← hlen]; exact hq.1
    set P1 := insertEntries fvarsL gvarsL (A.gv r) (parts.getD q default) with hP1
    have hroot_eq : assignRoot fvarsL gvarsL (A, parts) r
        = ((A.setWeight r 0).setSize r q,
            parts.set q { P1 with weight := P1.weight + A.weight r }) := by
      unfold assignRoot
      rw [if_pos hwr]
    have hP'g : ({ P1 with weight := P1.weight + A.weight r } : Partition).globals
        = (gvf r, true) :: (parts.getD q default).globals := by
      show P1.globals = _
      rw [hP1, insertEntries_globals, hAgv r]
    have hP'f : ({ P1 with weight := P1.weight + A.weight r } : Partition).fvars
        = ((flatId? fvarsL (gvf r)).map (fun k => (gvf r, k))).toList
            ++ (parts.getD q default).fvars := by
      show P1.fvars = _
      rw [hP1, insertEntries_fvars, hAgv r]
    have hP'v : ({ P1 with weight := P1.weight + A.weight r } : Partition).gvars
        = ((flatId? gvarsL (gvf r)).map (fun k => (gvf r, k))).toList
            ++ (parts.getD q default).gvars := by
      show P1.gvars = _
      rw [hP1, insertEntries_gvars, hAgv r]
    obtain ⟨B1n, B1gv, B1WF, B1root, B1len, B1w, B1sz, B1memPres, B1mem, B1cnt, B1fcnt,
        B1gcnt⟩ :=
      AUpd_spec n T gvf R fvarsL gvarsL A parts hAn hAgv fWF hAroot hlen
        hAcnt hAfcnt hAgcnt r hr_lt hwr q hqT _ hP'g hP'f hP'v
    rw [hroot_eq]
    by_cases hri : r ≠ i
    · -- branch 2 also fires (the component was first seen through a child)
      have hchild_eq : assignChild fvarsL gvarsL
          ((A.setWeight r 0).setSize r q,
            parts.set q { P1 with weight := P1.weight + A.weight r }) r i
          = ((((A.setWeight r 0).setSize r q).setWeight i 0).setSize i
                (((A.setWeight r 0).setSize r q).size r),
              (parts.set q { P1 with weight := P1.weight + A.weight r }).set
                (((A.setWeight r 0).setSize r q).size r)
                (insertEntries fvarsL gvarsL (((A.setWeight r 0).setSize r q).gv i)
                  ((parts.set q { P1 with weight := P1.weight + A.weight r }).getD
                    (((A.setWeight r 0).setSize r q).size r) default))) := by
        unfold assignChild
        rw [if_pos hri]
      have hsz_r : ((A.setWeight r 0).setSize r q).size r = q := by
        rw [B1sz r, if_pos rfl]
      rw [hchild_eq, hsz_r]
      have hRii : R i ≠ i := by rw [← hrRi]; exact hri
      have hwi : st.weight i = W i := hrem i hi hRii (List.mem_cons_self _ _)
      have hwi0 : ((A.setWeight r 0).setSize r q).weight i ≠ 0 := by
        rw [B1w i, if_neg (fun hir => hri hir.symm), congrFun fw i, hwi]
        have := hW i hi
        omega
      set P2 := insertEntries fvarsL gvarsL (((A.setWeight r 0).setSize r q).gv i)
        ((parts.set q { P1 with weight := P1.weight + A.weight r }).getD q default)
        with hP2
      have hP2g : P2.globals = (gvf i, true)
          :: ((parts.set q { P1 with weight := P1.weight + A.weight r }).getD
              q default).globals := by
        rw [hP2, insertEntries_globals, B1gv i]
      have hP2f : P2.fvars = ((flatId? fvarsL (gvf i)).map (fun k => (gvf i, k))).toList
          ++ ((parts.set q { P1 with weight := P1.weight + A.weight r }).getD
              q default).fvars := by
        rw [hP2, insertEntries_fvars, B1gv i]
      have hP2v : P2.gvars = ((flatId? gvarsL (gvf i)).map (fun k => (gvf i, k))).toList
          ++ ((parts.set q { P1 with weight := P1.weight + A.weight r }).getD
              q default).gvars := by
        rw [hP2, insertEntries_gvars, B1gv i]
      obtain ⟨C2n, C2gv, C2WF, C2root, C2len, C2w, C2sz, C2memPres, C2mem, C2cnt, C2fcnt,
          C2gcnt⟩ :=
        AUpd_spec n T gvf R fvarsL gvarsL ((A.setWeight r 0).setSize r q)
          (parts.set q { P1 with weight := P1.weight + A.weight r })
          B1n B1gv B1WF B1root B1len B1cnt B1fcnt B1gcnt i hi hwi0 q hqT _ hP2g hP2f hP2v
      refine ⟨C2n, C2gv, C2WF, C2root, C2len, ?_, ?_, ?_, ?_, C2cnt, C2fcnt, C2gcnt⟩
      · intro j hj
        rw [C2w j, B1w j]
        by_cases hji : j = i
        · rw [if_pos hji]; left; rfl
        · rw [if_neg hji]
          by_cases hjr : j = r
          · rw [if_pos hjr]; left; rfl
          · rw [if_neg hjr, congrFun fw j]
            exact hw j hj
      · intro j hj hRj hjmem
        have hji : j ≠ i := fun hje => hinotin (hje ▸ hjmem)
        have hjr : j ≠ r := fun hje => hRj (by rw [hje, hRr])
        rw [C2w j, if_neg hji, B1w j, if_neg hjr, congrFun fw j]
        exact hrem j hj hRj (List.mem_cons_of_mem _ hjmem)
      · intro j hj hjnot
        by_cases hji : j = i
        · rw [C2w j, if_pos hji]
        · by_cases hjr : j = r
          · rw [C2w j, if_neg hji, B1w j, if_pos hjr]
          · rw [C2w j, if_neg hji, B1w j, if_neg hjr, congrFun fw j]
            exact hdone j hj (fun hjin => by
              rcases List.mem_cons.mp hjin with hje | hje
              · exact hji hje
              · exact hjnot hje)
      · intro j hj hjw0
        by_cases hji : j = i
        · subst hji
          rw [← hrRi]
          constructor
          · rw [C2w r, if_neg (fun hir => hri hir), B1w r, if_pos rfl]
          constructor
          · rw [C2sz r, if_neg (fun hir => hri hir), B1sz r, if_pos rfl]
            exact hqT
          · rw [C2sz r, if_neg (fun hir => hri hir), B1sz r, if_pos rfl]
            exact C2mem
        · by_cases hjr : j = r
          · rw [hjr, hRr]
            constructor
            · rw [C2w r, if_neg hri, B1w r, if_pos rfl]
            constructor
            · rw [C2sz r, if_neg hri, B1sz r, if_pos rfl]
              exact hqT
            · rw [C2sz r, if_neg hri, B1sz r, if_pos rfl]
              exact C2memPres q _ B1mem
          · have hjw : st.weight j = 0 := by
              rw [← congrFun fw j]
              have := hjw0
              rw [C2w j, if_neg hji, B1w j, if_neg hjr] at this
              exact this
            obtain ⟨hpw, hps, hpm⟩ := hplace j hj hjw
            have hRjr : R j ≠ r := fun hje => hstwr (hje ▸ hpw)
            have hRji : R j ≠ i := by
              intro hje
              have : R i = R (R j) := by rw [hje]
              rw [(hR j hj).2, hje] at this
              rw [← hrRi] at this
              exact hri this
            constructor
            · rw [C2w _, if_neg hRji, B1w _, if_neg hRjr, congrFun fw (R j)]
              exact hpw
            constructor
            · rw [C2sz _, if_neg hRji, B1sz _, if_neg hRjr, congrFun fsz (R j)]
              exact hps
            · rw [C2sz _, if_neg hRji, B1sz _, if_neg hRjr, congrFun fsz (R j)]
              exact C2memPres _ _ (B1memPres _ _ hpm)
    · -- the root is the processed index itself; branch 2 skipped
      have hreq : r = i := not_ne_iff.mp hri
      have hchild_eq : assignChild fvarsL gvarsL
          ((A.setWeight r 0).setSize r q,
            parts.set q { P1 with weight := P1.weight + A.weight r }) r i
          = ((A.setWeight r 0).setSize r q,
              parts.set q { P1 with weight := P1.weight + A.weight r }) := by
        unfold assignChild
        rw [if_neg hri]
      rw [hchild_eq]
      refine ⟨B1n, B1gv, B1WF, B1root, B1len, ?_, ?_, ?_, ?_, B1cnt, B1fcnt, B1gcnt⟩
      · intro j hj
        rw [B1w j]
        by_cases hjr : j = r
        · rw [if_pos hjr]; left; rfl
        · rw [if_neg hjr, congrFun fw j]
          exact hw j hj
      · intro j hj hRj hjmem
        have hjr : j ≠ r := fun hje => hinotin (by rw [← hreq, ← hje]; exact hjmem)
        rw [B1w j, if_neg hjr, congrFun fw j]
        exact hrem j hj hRj (List.mem_cons_of_mem _ hjmem)
      · intro j hj hjnot
        by_cases hjr : j = r
        · rw [B1w j, if_pos hjr]
        · rw [B1w j, if_neg hjr, congrFun fw j]
          exact hdone j hj (fun hjin => by
            rcases List.mem_cons.mp hjin with hje | hje
            · exact hjr (by rw [hje, ← hreq])
            · exact hjnot hje)
      · intro j hj hjw0
        by_cases hjr : j = r
        · rw [hjr, hRr]
          constructor
          · rw [B1w r, if_pos rfl]
          constructor
          · rw [B1sz r, if_pos rfl]
            exact hqT
          · rw [B1sz r, if_pos rfl]
            exact B1mem
        · have hjw : st.weight j = 0 := by
            rw [← congrFun fw j]
            have := hjw0
            rw [B1w j, if_neg hjr] at this
            exact this
          obtain ⟨hpw, hps, hpm⟩ := hplace j hj hjw
          have hRjr : R j ≠ r := fun hje => hstwr (hje ▸ hpw)
          constructor
          · rw [B1w _, if_neg hRjr, congrFun fw (R j)]
            exact hpw
          constructor
          · rw [B1sz _, if_neg hRjr, congrFun fsz (R j)]
            exact hps
          · rw [B1sz _, if_neg hRjr, congrFun fsz (R j)]
            exact B1memPres _ _ hpm
  · -- the root was already assigned at an earlier index of its component
    have hwr0 : A.weight r = 0 := not_ne_iff.mp hwr
    have hstw0 : st.weight r = 0 := by rw [← congrFun fw r]; exact hwr0
    have hroot_eq : assignRoot fvarsL gvarsL (A, parts) r = (A, parts) := by
      unfold assignRoot
      rw [if_neg hwr]
    rw [hroot_eq]
    by_cases hri : r ≠ i
    · -- branch 2 fires
      have hchild_eq : assignChild fvarsL gvarsL (A, parts) r i
          = ((A.setWeight i 0).setSize i (A.size r),
              parts.set (A.size r)
                (insertEntries fvarsL gvarsL (A.gv i)
                  (parts.getD (A.size r) default))) := by
        unfold assignChild
        rw [if_pos hri]
      rw [hchild_eq]
      obtain ⟨hpw_r, hps_r, hpm_r⟩ := hplace r hr_lt hstw0
      rw [hRr] at hpw_r hps_r hpm_r
      have hq'T : A.size r < T := by rw [congrFun fsz r]; exact hps_r
      have hRii : R i ≠ i := by rw [← hrRi]; exact hri
      have hwi : st.weight i = W i := hrem i hi hRii (List.mem_cons_self _ _)
      have hwi0 : A.weight i ≠ 0 := by
        rw [congrFun fw i, hwi]
        have := hW i hi
        omega
      set P2 := insertEntries fvarsL gvarsL (A.gv i) (parts.getD (A.size r) default)
        with hP2
      have hP2g : P2.globals = (gvf i, true)
          :: (parts.getD (A.size r) default).globals := by
        rw [hP2, insertEntries_globals, hAgv i]
      have hP2f : P2.fvars = ((flatId? fvarsL (gvf i)).map (fun k => (gvf i, k))).toList
          ++ (parts.getD (A.size r) default).fvars := by
        rw [hP2, insertEntries_fvars, hAgv i]
      have hP2v : P2.gvars = ((flatId? gvarsL (gvf i)).map (fun k => (gvf i, k))).toList
          ++ (parts.getD (A.size r) default).gvars := by
        rw [hP2, insertEntries_gvars, hAgv i]
      obtain ⟨C2n, C2gv, C2WF, C2root, C2len, C2w, C2sz, C2memPres, C2mem, C2cnt, C2fcnt,
          C2gcnt⟩ :=
        AUpd_spec n T gvf R fvarsL gvarsL A parts hAn hAgv fWF hAroot hlen
          hAcnt hAfcnt hAgcnt i hi hwi0 (A.size r) hq'T _ hP2g hP2f hP2v
      refine ⟨C2n, C2gv, C2WF, C2root, C2len, ?_, ?_, ?_, ?_, C2cnt, C2fcnt, C2gcnt⟩
      · intro j hj
        rw [C2w j]
        by_cases hji : j = i
        · rw [if_pos hji]; left; rfl
        · rw [if_neg hji, congrFun fw j]
          exact hw j hj
      · intro j hj hRj hjmem
        have hji : j ≠ i := fun hje => hinotin (hje ▸ hjmem)
        rw [C2w j, if_neg hji, congrFun fw j]
        exact hrem j hj hRj (List.mem_cons_of_mem _ hjmem)
      · intro j hj hjnot
        by_cases hji : j = i
        · rw [C2w j, if_pos hji]
        · by_cases hjr : j = r
          · rw [C2w j, if_neg hji, hjr]
            exact hwr0
          · rw [C2w j, if_neg hji, congrFun fw j]
            exact hdone j hj (fun hjin => by
              rcases List.mem_cons.mp hjin with hje | hje
              · exact hji hje
              · exact hjnot hje)
      · intro j hj hjw0
        by_cases hji : j = i
        · subst hji
          rw [← hrRi]
          constructor
          · rw [C2w r, if_neg (fun hir => hri hir), congrFun fw r]
            exact hstw0
          constructor
          · rw [C2sz r, if_neg (fun hir => hri hir)]
            exact hq'T
          · rw [C2sz r, if_neg (fun hir => hri hir)]
            exact C2mem
        · have hjw : st.weight j = 0 := by
            rw [← congrFun fw j]
            have := hjw0
            rw [C2w j, if_neg hji] at this
            exact this
          obtain ⟨hpw, hps, hpm⟩ := hplace j hj hjw
          have hRji : R j ≠ i := by
            intro hje
            have : R i = R (R j) := by rw [hje]
            rw [(hR j hj).2, hje] at this
            rw [← hrRi] at this
            exact hri this
          constructor
          · rw [C2w _, if_neg hRji, congrFun fw (R j)]
            exact hpw
          constructor
          · rw [C2sz _, if_neg hRji, congrFun fsz (R j)]
            exact hps
          · rw [C2sz _, if_neg hRji, congrFun fsz (R j)]
            have hmem2 := C2memPres (st.size (R j)) _ hpm
            rw [← congrFun fsz (R j)] at hmem2
            rw [← congrFun fsz (R j)]
            exact hmem2
    · -- both branches skipped: the index is an already-assigned root
      have hreq : r = i := not_ne_iff.mp hri
      have hchild_eq : assignChild fvarsL gvarsL (A, parts) r i = (A, parts) := by
        unfold assignChild
        rw [if_neg hri]
      rw [hchild_eq]
      refine ⟨hAn, hAgv, fWF, hAroot, hlen, ?_, ?_, ?_, ?_, hAcnt, hAfcnt, hAgcnt⟩
      · intro j hj
        rw [congrFun fw j]
        exact hw j hj
      · intro j hj hRj hjmem
        rw [congrFun fw j]
        exact hrem j hj hRj (List.mem_cons_of_mem _ hjmem)
      · intro j hj hjnot
        rw [congrFun fw j]
        by_cases hji : j = i
        · rw [hji, ← hreq]
          exact hstw0
        · exact hdone j hj (fun hjin => by
            rcases List.mem_cons.mp hjin with hje | hje
            · exact hji hje
            · exact hjnot hje)
      · intro j hj hjw0
        rw [congrFun fw j] at hjw0
        obtain ⟨hpw, hps, hpm⟩ := hplace j hj hjw0
        refine ⟨by rw [congrFun fw (R j)]; exact hpw,
          by rw [congrFun fsz (R j)]; exact hps, ?_⟩
        rw [congrFun fsz (R j)]
        exact hpm

theorem assignFold_inv
    (n T : Nat) (gvf : Nat → String) (R W : Nat → Nat) (fvarsL gvarsL : List String)
    (hT : 0 < T) (hW : ∀ j, j < n → 1 ≤ W j)
    (hR : ∀ j, j < n → R j < n ∧ R (R j) = R j) :
    ∀ (rem : List Nat) (sp : UFState × List Partition), rem.Nodup →
      (∀ i ∈ rem, i < n) →
      AInv n T gvf R W fvarsL gvarsL rem sp →
      AInv n T gvf R W fvarsL gvarsL []
        (rem.foldl (assignStep fvarsL gvarsL) sp) := by
  intro rem
  induction rem with
  | nil => exact fun sp _ _ h => h
  | cons i rem' ih =>
    intro sp hnd hbd h
    simp only [List.foldl_cons]
    refine ih _ (List.nodup_cons.mp hnd).2 (fun a ha => hbd a (List.mem_cons_of_mem _ ha)) ?_
    obtain ⟨st, parts⟩ := sp
    exact assignStep_inv n T gvf R W fvarsL gvarsL hT hW hR i
      (hbd i (List.mem_cons_self _ _)) rem' (List.nodup_cons.mp hnd).1 st parts h

theorem allGlobals_replicate (T : Nat) : allGlobals (List.replicate T default) = [] := by
  induction T with
  | zero => rfl
  | succ T ih =>
    unfold allGlobals at ih ⊢
    rw [List.replicate_succ, List.map_cons, List.flatten_cons, ih]
    rfl

theorem allFvars_replicate (T : Nat) : allFvars (List.replicate T default) = [] := by
  induction T with
  | zero => rfl
  | succ T ih =>
    unfold allFvars at ih ⊢
    rw [List.replicate_succ, List.map_cons, List.flatten_cons, ih]
    rfl

theorem allGvars_replicate (T : Nat) : allGvars (List.replicate T default) = [] := by
  induction T with
  | zero => rfl
  | succ T ih =>
    unfold allGvars at ih ⊢
    rw [List.replicate_succ, List.map_cons, List.flatten_cons, ih]
    rfl

/-- The assignment loop runs to completion: the final state of
`partitionModule` satisfies the master invariant with nothing left to
process, and every node has been assigned (weight zeroed). -/
theorem partitionModule_final (M : List PGlobal) (fvarsL gvarsL : List String)
    (T : Nat) (hT : 0 < T) :
    ∃ stf : UFState,
      AInv (M.filter partitionable).length T (buildNodes M).gv
        (mergePhase M (buildNodes M)).root (mergePhase M (buildNodes M)).weight
        fvarsL gvarsL [] (stf, partitionModule M fvarsL gvarsL T)
      ∧ (∀ j, j < (M.filter partitionable).length → stf.weight j = 0) := by
  obtain ⟨hBn, hBfields, hBpar⟩ := buildNodes_spec M
  have hMB0 : MB (M.filter partitionable).length (buildNodes M).gv (buildNodes M) := by
    refine ⟨hBn, fun j => rfl, buildNodes_WF M, ?_⟩
    intro j hj
    rw [(hBfields j hj).2]
    exact nodeWeight_pos _
  have hMB1 := mergePhase_MB M (M.filter partitionable).length (buildNodes M).gv
    (buildNodes M) hMB0
  obtain ⟨h1n, h1gv, h1WF, h1w⟩ := hMB1
  have hR : ∀ j, j < (M.filter partitionable).length →
      (mergePhase M (buildNodes M)).root j < (M.filter partitionable).length
        ∧ (mergePhase M (buildNodes M)).root ((mergePhase M (buildNodes M)).root j)
            = (mergePhase M (buildNodes M)).root j := by
    intro j hj
    constructor
    · rw [← h1n]
      exact root_lt _ h1WF j (by rw [h1n]; exact hj)
    · exact root_root _ h1WF j (by rw [h1n]; exact hj)
  have hperm := sortDesc_perm (mergePhase M (buildNodes M)).weight
    (List.range (mergePhase M (buildNodes M)).n)
  have hnodup : (sortDesc (mergePhase M (buildNodes M)).weight
      (List.range (mergePhase M (buildNodes M)).n)).Nodup :=
    hperm.nodup_iff.mpr (List.nodup_range _)
  have hbd : ∀ i ∈ sortDesc (mergePhase M (buildNodes M)).weight
      (List.range (mergePhase M (buildNodes M)).n),
      i < (M.filter partitionable).length := by
    intro i hi
    have := hperm.mem_iff.mp hi
    rw [List.mem_range, h1n] at this
    exact this
  have hzero_empty : zeroedList (M.filter partitionable).length
      (mergePhase M (buildNodes M)).weight = [] := by
    unfold zeroedList
    rw [List.filter_eq_nil_iff]
    intro j hj
    have := h1w j (by simpa using hj)
    simp only [decide_eq_true_eq]
    omega
  have hinit : AInv (M.filter partitionable).length T (buildNodes M).gv
      (mergePhase M (buildNodes M)).root (mergePhase M (buildNodes M)).weight
      fvarsL gvarsL
      (sortDesc (mergePhase M (buildNodes M)).weight
        (List.range (mergePhase M (buildNodes M)).n))
      (mergePhase M (buildNodes M), List.replicate T default) := by
    refine ⟨h1n, h1gv, h1WF, fun j hj => rfl, by simp, fun j hj => Or.inr rfl,
      fun j hj _ _ => rfl, ?_, ?_, ?_, ?_, ?_⟩
    · intro j hj hnin
      exfalso
      apply hnin
      apply hperm.mem_iff.mpr
      rw [List.mem_range, h1n]
      exact hj
    · intro j hj h0
      have h0' : (mergePhase M (buildNodes M)).weight j = 0 := h0
      have := h1w j hj
      omega
    · intro x
      rw [allGlobals_replicate, hzero_empty]
      rfl
    · intro x
      rw [allFvars_replicate, hzero_empty]
      rfl
    · intro x
      rw [allGvars_replicate, hzero_empty]
      rfl
  have hfinal := assignFold_inv (M.filter partitionable).length T (buildNodes M).gv
    (mergePhase M (buildNodes M)).root (mergePhase M (buildNodes M)).weight
    fvarsL gvarsL hT h1w hR _ _ hnodup hbd hinit
  refine ⟨((sortDesc (mergePhase M (buildNodes M)).weight
      (List.range (mergePhase M (buildNodes M)).n)).foldl
        (assignStep fvarsL gvarsL)
        (mergePhase M (buildNodes M), List.replicate T default)).1, hfinal, ?_⟩
  intro j hj
  exact hfinal.2.2.2.2.2.2.2.1 j hj (List.not_mem_nil j)

theorem cons_erase_perm {α : Type} [BEq α] [LawfulBEq α] {a : α} :
    ∀ {l : List α}, a ∈ l → l.Perm (a :: l.erase a) := by
  intro l
  induction l with
  | nil => intro h; cases h
  | cons b t ih =>
    intro h
    by_cases hba : (b == a) = true
    · have hb : b = a := eq_of_beq hba
      subst hb
      rw [List.erase_cons_head]
    · rcases List.mem_cons.mp h with he | ht
      · exact absurd (beq_iff_eq.mpr he.symm) hba
      · rw [List.erase_cons_tail]
        · exact ((ih ht).cons b).trans (List.Perm.swap a b _)
        · simpa using hba

theorem perm_of_count {α : Type} [BEq α] [LawfulBEq α] :
    ∀ (l1 l2 : List α), (∀ x, l1.count x = l2.count x) → l1.Perm l2 := by
  intro l1
  induction l1 with
  | nil =>
    intro l2 h
    cases l2 with
    | nil => exact List.Perm.refl _
    | cons b t =>
      exfalso
      have hb := h b
      rw [List.count_nil, List.count_cons_self] at hb
      omega
  | cons a l1 ih =>
    intro l2 h
    have hmem : a ∈ l2 := by
      rw [← List.count_pos_iff]
      have ha := h a
      rw [List.count_cons_self] at ha
      omega
    have hperm2 := cons_erase_perm hmem
    refine ((ih (l2.erase a) ?_).cons a).trans hperm2.symm
    intro x
    have hx := h x
    have he := perm_count_eq hperm2 x
    rw [List.count_cons] at hx he
    omega

theorem count_nodup_one {α : Type} [BEq α] [LawfulBEq α] :
    ∀ (l : List α), l.Nodup → ∀ (a : α), a ∈ l → l.count a = 1 := by
  intro l
  induction l with
  | nil => intro _ a h; cases h
  | cons b t ih =>
    intro hnd a ha
    rcases List.mem_cons.mp ha with he | ht
    · subst he
      rw [List.count_cons_self, List.count_eq_zero.mpr (List.nodup_cons.mp hnd).1]
    · have hne : a ≠ b := fun he => (List.nodup_cons.mp hnd).1 (he ▸ ht)
      rw [List.count_cons_of_ne hne]
      exact ih (List.nodup_cons.mp hnd).2 a ht

theorem range_map_getD {α β : Type} [Inhabited α] (l : List α) (f : α → β) :
    (List.range l.length).map (fun i => f (l.getD i default)) = l.map f := by
  apply List.ext_getElem
  · simp
  · intro i h1 h2
    simp only [List.getElem_map, List.getElem_range]
    rw [List.getD_eq_getElem l default (by simpa using h2)]

/-- `buildNodes` produces a state satisfying the merge-phase invariant
bundle over its own names. -/
theorem buildNodes_MB (M : List PGlobal) :
    MB (M.filter partitionable).length (buildNodes M).gv (buildNodes M) := by
  refine ⟨(buildNodes_spec M).1, fun j => rfl, buildNodes_WF M, ?_⟩
  intro j hj
  rw [((buildNodes_spec M).2.1 j hj).2]
  exact nodeWeight_pos _

/-- Under duplicate-free module names, node names are injective on the node
range. -/
theorem buildNodes_gv_inj (M : List PGlobal) (hnames : (M.map PGlobal.name).Nodup) :
    ∀ a b, a < (buildNodes M).n → b < (buildNodes M).n →
      (buildNodes M).gv a = (buildNodes M).gv b → a = b := by
  intro a b ha hb hab
  rw [(buildNodes_spec M).1] at ha hb
  rw [((buildNodes_spec M).2.1 a ha).1, ((buildNodes_spec M).2.1 b hb).1] at hab
  have hsubnd : ((M.filter partitionable).map PGlobal.name).Nodup :=
    hnames.sublist ((List.filter_sublist M).map PGlobal.name)
  have hla : a < ((M.filter partitionable).map PGlobal.name).length := by simpa using ha
  have hlb : b < ((M.filter partitionable).map PGlobal.name).length := by simpa using hb
  have hget : ((M.filter partitionable).map PGlobal.name).get ⟨a, hla⟩
      = ((M.filter partitionable).map PGlobal.name).get ⟨b, hlb⟩ := by
    simp only [List.get_eq_getElem, List.getElem_map]
    rw [← List.getD_eq_getElem _ default ha, ← List.getD_eq_getElem _ default hb]
    exact hab
  exact congrArg Fin.val (hsubnd.get_inj_iff.mp hget)

/-- C1: for every shard count `T ≥ 1` and duplicate-free module, flattening
the `globals` tables of all partitions produced by `partitionModule` yields a
permutation of the module's partitionable definitions (one `(name, true)`
entry each) with no entry repeated: every partitionable symbol lands in
exactly one partition. -/
theorem C1_partition_exact_cover (M : List PGlobal) (fvarsL gvarsL : List String)
    (T : Nat) (hT : 0 < T) (hnames : (M.map PGlobal.name).Nodup) :
    (allGlobals (partitionModule M fvarsL gvarsL T)).Perm
        ((M.filter partitionable).map (fun g => (g.name, true)))
      ∧ (allGlobals (partitionModule M fvarsL gvarsL T)).Nodup := by
  obtain ⟨stf, hAInv, hzero⟩ := partitionModule_final M fvarsL gvarsL T hT
  obtain ⟨-, -, -, -, -, -, -, -, -, h10, -, -⟩ := hAInv
  have hcnt : ∀ x, (allGlobals (partitionModule M fvarsL gvarsL T)).count x
      = ((zeroedList (M.filter partitionable).length stf.weight).map
          (fun j => ((buildNodes M).gv j, true))).count x := h10
  have hzl : zeroedList (M.filter partitionable).length stf.weight
      = List.range (M.filter partitionable).length := by
    unfold zeroedList
    apply List.filter_eq_self.mpr
    intro j hj
    simp only [decide_eq_true_eq]
    exact hzero j (List.mem_range.mp hj)
  have hmap : (List.range (M.filter partitionable).length).map
      (fun j => ((buildNodes M).gv j, true))
      = (M.filter partitionable).map (fun g => (g.name, true)) := by
    have hcg : ∀ j ∈ List.range (M.filter partitionable).length,
        (((buildNodes M).gv j, true) : String × Bool)
          = (((M.filter partitionable).getD j default).name, true) := by
      intro j hj
      rw [((buildNodes_spec M).2.1 j (List.mem_range.mp hj)).1]
    rw [List.map_congr_left hcg]
    exact range_map_getD (M.filter partitionable) (fun g => (g.name, true))
  have hperm : (allGlobals (partitionModule M fvarsL gvarsL T)).Perm
      ((M.filter partitionable).map (fun g => (g.name, true))) := by
    apply perm_of_count
    intro x
    rw [hcnt x, hzl, hmap]
  have htargetnd : ((M.filter partitionable).map (fun g => (g.name, true))).Nodup := by
    have hsubnd : ((M.filter partitionable).map PGlobal.name).Nodup :=
      hnames.sublist ((List.filter_sublist M).map PGlobal.name)
    have hre : (M.filter partitionable).map (fun g => (g.name, true))
        = ((M.filter partitionable).map PGlobal.name).map (fun nm => (nm, true)) := by
      rw [List.map_map]
      rfl
    rw [hre]
    exact hsubnd.map (fun a b hab => by simpa using hab)
  exact ⟨hperm, hperm.nodup_iff.mpr htargetnd⟩

theorem C1_witness :
    0 < 2 ∧ (exM.map PGlobal.name).Nodup
      ∧ ((allGlobals (partitionModule exM ["a", "c"] ["b"] 2)).Perm
            ((exM.filter partitionable).map (fun g => (g.name, true)))
          ∧ (allGlobals (partitionModule exM ["a", "c"] ["b"] 2)).Nodup) :=
  ⟨by decide, by decide,
    C1_partition_exact_cover exM ["a", "c"] ["b"] 2 (by decide) (by decide)⟩

/-- C2: whenever partitionable `A` references partitionable `B`, the two end
up in the same partition, for every shard count `T ≥ 1`. -/
theorem C2_use_colocation (M : List PGlobal) (fvarsL gvarsL : List String)
    (T : Nat) (hT : 0 < T) (hnames : (M.map PGlobal.name).Nodup)
    (A B : PGlobal) (hA : A ∈ M) (hB : B ∈ M)
    (hpA : partitionable A = true) (hpB : partitionable B = true)
    (href : B.name ∈ A.refs) :
    ∃ p ∈ partitionModule M fvarsL gvarsL T,
      (A.name, true) ∈ p.globals ∧ (B.name, true) ∈ p.globals := by
  have hAf : A ∈ M.filter partitionable := List.mem_filter.mpr ⟨hA, hpA⟩
  have hBf : B ∈ M.filter partitionable := List.mem_filter.mpr ⟨hB, hpB⟩
  obtain ⟨iA, hiAlt, hiAget⟩ := List.getElem_of_mem hAf
  obtain ⟨iB, hiBlt, hiBget⟩ := List.getElem_of_mem hBf
  have hgvA : (buildNodes M).gv iA = A.name := by
    rw [((buildNodes_spec M).2.1 iA hiAlt).1,
      List.getD_eq_getElem _ default hiAlt, hiAget]
  have hgvB : (buildNodes M).gv iB = B.name := by
    rw [((buildNodes_spec M).2.1 iB hiBlt).1,
      List.getD_eq_getElem _ default hiBlt, hiBget]
  have hedge : iA ∈ userIdxs M (buildNodes M) ((buildNodes M).gv iB) := by
    unfold userIdxs
    apply List.mem_filterMap.mpr
    refine ⟨A, hA, ?_⟩
    show (if (buildNodes M).gv iB ∈ A.refs then (buildNodes M).nodeIdx? A.name else none)
        = some iA
    rw [hgvB, if_pos href]
    exact nodeIdx?_eq_some (buildNodes M) A.name iA
      (by rw [(buildNodes_spec M).1]; exact hiAlt) hgvA (buildNodes_gv_inj M hnames)
  have hconn := mergePhase_connects M (M.filter partitionable).length (buildNodes M).gv
    (buildNodes M) (buildNodes_MB M) iA iB hiAlt hiBlt hedge
  obtain ⟨stf, hAInv, hzero⟩ := partitionModule_final M fvarsL gvarsL T hT
  obtain ⟨-, -, -, -, h5, -, -, -, h9, -, -, -⟩ := hAInv
  have hlenT : (partitionModule M fvarsL gvarsL T).length = T := h5
  have hplace : ∀ j, j < (M.filter partitionable).length → stf.weight j = 0 →
      stf.weight ((mergePhase M (buildNodes M)).root j) = 0
        ∧ stf.size ((mergePhase M (buildNodes M)).root j) < T
        ∧ ((buildNodes M).gv j, true)
            ∈ ((partitionModule M fvarsL gvarsL T).getD
                (stf.size ((mergePhase M (buildNodes M)).root j)) default).globals := h9
  obtain ⟨-, hqlt, hmemA⟩ := hplace iA hiAlt (hzero iA hiAlt)
  obtain ⟨-, -, hmemB⟩ := hplace iB hiBlt (hzero iB hiBlt)
  refine ⟨(partitionModule M fvarsL gvarsL T).getD
      (stf.size ((mergePhase M (buildNodes M)).root iA)) default, ?_, ?_, ?_⟩
  · have hlt : stf.size ((mergePhase M (buildNodes M)).root iA)
        < (partitionModule M fvarsL gvarsL T).length := by rw [hlenT]; exact hqlt
    rw [List.getD_eq_getElem _ default hlt]
    exact List.getElem_mem hlt
  · rw [← hgvA]
    exact hmemA
  · rw [← hgvB, hconn]
    exact hmemB

theorem C2_witness :
    0 < 2 ∧ (exM.map PGlobal.name).Nodup
      ∧ exA ∈ exM ∧ exB ∈ exM
      ∧ partitionable exA = true ∧ partitionable exB = true
      ∧ exB.name ∈ exA.refs
      ∧ ∃ p ∈ partitionModule exM ["a", "c"] ["b"] 2,
          (exA.name, true) ∈ p.globals ∧ (exB.name, true) ∈ p.globals :=
  ⟨by decide, by decide, by decide, by decide, by decide, by decide, by decide,
    C2_use_colocation exM ["a", "c"] ["b"] 2 (by decide) (by decide) exA exB
      (by decide) (by decide) (by decide) (by decide) (by decide)⟩

theorem findIdx?_eq_some (p : String → Bool) :
    ∀ (l : List String) (i k : Nat), List.findIdx? p l i = some k →
      i ≤ k ∧ k - i < l.length ∧ p (l.getD (k - i) default) = true := by
  intro l
  induction l with
  | nil =>
    intro i k h
    simp [List.findIdx?_nil] at h
  | cons a t ih =>
    intro i k h
    rw [List.findIdx?_cons] at h
    by_cases ha : p a = true
    · rw [if_pos ha] at h
      injection h with h0
      subst h0
      refine ⟨le_refl _, by simp only [List.length_cons]; omega, ?_⟩
      simp only [Nat.sub_self, List.getD_cons_zero]
      exact ha
    · rw [if_neg ha] at h
      obtain ⟨h1, h2, h3⟩ := ih (i + 1) k h
      refine ⟨by omega, by simp only [List.length_cons]; omega, ?_⟩
      have hki : k - i = (k - (i + 1)) + 1 := by omega
      rw [hki, List.getD_cons_succ]
      exact h3

/-- A found flat id is a valid index of the table holding exactly the looked-up
name. -/
theorem flatId?_spec (l : List String) (nm : String) (k : Nat)
    (h : flatId? l nm = some k) : k < l.length ∧ l.getD k default = nm := by
  unfold flatId? at h
  obtain ⟨h1, h2, h3⟩ := findIdx?_eq_some _ l 0 k h
  rw [Nat.sub_zero] at h2 h3
  exact ⟨h2, by simpa using h3⟩

theorem findIdx?_getD_nodup :
    ∀ (l : List String), l.Nodup → ∀ (k i : Nat), k < l.length →
      List.findIdx? (fun x => decide (x = l.getD k default)) l i = some (k + i) := by
  intro l
  induction l with
  | nil =>
    intro _ k i hk
    simp at hk
  | cons a t ih =>
    intro hnd k i hk
    cases k with
    | zero =>
      rw [List.findIdx?_cons, if_pos (by simp)]
      rw [Nat.zero_add]
    | succ k =>
      simp only [List.getD_cons_succ]
      rw [List.findIdx?_cons]
      have hkt : k < t.length := by simpa using hk
      have hmem : t.getD k default ∈ t := by
        rw [List.getD_eq_getElem t default hkt]
        exact List.getElem_mem hkt
      have hne : ¬(decide (a = t.getD k default) = true) := by
        simp only [decide_eq_true_eq]
        exact fun he => (List.nodup_cons.mp hnd).1 (by rw [he]; exact hmem)
      rw [if_neg hne, ih (List.nodup_cons.mp hnd).2 k (i + 1) hkt]
      exact congrArg some (by omega)

/-- In a duplicate-free table, looking up the name stored at index `k` finds
exactly `k`. -/
theorem flatId?_getD (l : List String) (hnd : l.Nodup) (k : Nat) (hk : k < l.length) :
    flatId? l (l.getD k default) = some k := by
  unfold flatId?
  have := findIdx?_getD_nodup l hnd k 0 hk
  simpa using this

theorem filterMap_ext {α β : Type} (f g : α → Option β) :
    ∀ l : List α, (∀ a ∈ l, f a = g a) → l.filterMap f = l.filterMap g := by
  intro l
  induction l with
  | nil => intro _; rfl
  | cons a t ih =>
    intro h
    rw [List.filterMap_cons, List.filterMap_cons, h a (by simp),
      ih (fun x hx => h x (by simp [hx]))]

theorem filterMap_table_snd (tbl : List String) :
    ∀ names : List String,
      ((names.filterMap (fun nm => (flatId? tbl nm).map (fun k => (nm, k)))).map Prod.snd)
        = names.filterMap (flatId? tbl) := by
  intro names
  induction names with
  | nil => rfl
  | cons a t ih =>
    rw [List.filterMap_cons, List.filterMap_cons]
    cases h : flatId? tbl a with
    | none => simp [h, ih]
    | some k => simp [h, ih]

/-- Under duplicate-free tables whose names all occur among the (duplicate-free)
node names, the flat ids recovered by looking every node name up in the table
are exactly `{0 .. tbl.length - 1}`, once each. -/
theorem filterMap_flatId_perm (tbl names : List String) (htnd : tbl.Nodup)
    (hnnd : names.Nodup) (hcov : ∀ nm ∈ tbl, nm ∈ names) :
    (names.filterMap (flatId? tbl)).Perm (List.range tbl.length) := by
  apply List.perm_of_nodup_nodup_toFinset_eq
  · refine List.Nodup.filterMap ?_ hnnd
    intro a b k hka hkb
    have ha := flatId?_spec tbl a k (Option.mem_def.mp hka)
    have hb := flatId?_spec tbl b k (Option.mem_def.mp hkb)
    rw [← ha.2, ← hb.2]
  · exact List.nodup_range _
  · apply Finset.ext
    intro k
    simp only [List.mem_toFinset, List.mem_filterMap, List.mem_range]
    constructor
    · rintro ⟨nm, hnm, hid⟩
      exact (flatId?_spec tbl nm k hid).1
    · intro hk
      have hmem : tbl.getD k default ∈ tbl := by
        rw [List.getD_eq_getElem tbl default hk]
        exact List.getElem_mem hk
      exact ⟨tbl.getD k default, hcov _ hmem, flatId?_getD tbl htnd k hk⟩

theorem mem_filterMap_table (tbl names : List String) :
    ∀ e ∈ names.filterMap (fun nm => (flatId? tbl nm).map (fun k => (nm, k))),
      flatId? tbl e.1 = some e.2 := by
  intro e he
  obtain ⟨nm, hnm, hid⟩ := List.mem_filterMap.mp he
  cases h : flatId? tbl nm with
  | none =>
    rw [h] at hid
    cases hid
  | some k =>
    rw [h] at hid
    have he2 : (nm, k) = e := by simpa using hid
    rw [← he2]
    exact h

/-- Abstract form of the per-table C3 argument, for one index table `tbl` and
one flattened output `all` satisfying the final count invariant. -/
theorem table_fold_perm (M : List PGlobal) (tbl : List String)
    (stf : UFState) (all : List (String × Nat))
    (hcnt : ∀ x, all.count x
      = ((zeroedList (M.filter partitionable).length stf.weight).filterMap
          (fun j => (flatId? tbl ((buildNodes M).gv j)).map
            (fun k => ((buildNodes M).gv j, k)))).count x)
    (hzero : ∀ j, j < (M.filter partitionable).length → stf.weight j = 0)
    (hnames : (M.map PGlobal.name).Nodup)
    (htnd : tbl.Nodup)
    (hcov : ∀ nm ∈ tbl, nm ∈ (M.filter partitionable).map PGlobal.name) :
    (all.map Prod.snd).Perm (List.range tbl.length)
      ∧ ∀ e ∈ all, flatId? tbl e.1 = some e.2 := by
  set names := (M.filter partitionable).map PGlobal.name with hnamesdef
  have hzl : zeroedList (M.filter partitionable).length stf.weight
      = List.range (M.filter partitionable).length := by
    unfold zeroedList
    apply List.filter_eq_self.mpr
    intro j hj
    simp only [decide_eq_true_eq]
    exact hzero j (List.mem_range.mp hj)
  have hlen : names.length = (M.filter partitionable).length := by
    rw [hnamesdef, List.length_map]
  have hgvj : ∀ j ∈ List.range (M.filter partitionable).length,
      ((flatId? tbl ((buildNodes M).gv j)).map (fun k => ((buildNodes M).gv j, k)))
        = ((fun nm => (flatId? tbl nm).map (fun k => (nm, k)))
            (names.getD j default)) := by
    intro j hj
    have hj' := List.mem_range.mp hj
    have hg : (buildNodes M).gv j = names.getD j default := by
      rw [((buildNodes_spec M).2.1 j hj').1, hnamesdef,
        List.getD_eq_getElem (M.filter partitionable) default hj',
        List.getD_eq_getElem (List.map PGlobal.name (M.filter partitionable)) default
          (by rw [List.length_map]; exact hj'),
        List.getElem_map]
    rw [hg]
  have hLeq : (zeroedList (M.filter partitionable).length stf.weight).filterMap
      (fun j => (flatId? tbl ((buildNodes M).gv j)).map
        (fun k => ((buildNodes M).gv j, k)))
      = names.filterMap (fun nm => (flatId? tbl nm).map (fun k => (nm, k))) := by
    rw [hzl, filterMap_ext _ _ (List.range (M.filter partitionable).length) hgvj,
      ← hlen]
    have hid : (List.range names.length).map (fun i => names.getD i default)
        = names := by
      have := range_map_getD names id
      simpa using this
    conv_rhs => rw [← hid]
    rw [List.filterMap_map]
    rfl
  have hperm : all.Perm
      (names.filterMap (fun nm => (flatId? tbl nm).map (fun k => (nm, k)))) := by
    apply perm_of_count
    intro x
    rw [hcnt x, hLeq]
  have hnnd : names.Nodup := hnames.sublist ((List.filter_sublist M).map PGlobal.name)
  constructor
  · refine (hperm.map Prod.snd).trans ?_
    rw [filterMap_table_snd]
    exact filterMap_flatId_perm tbl names htnd hnnd hcov
  · intro e he
    exact mem_filterMap_table tbl names e (hperm.mem_iff.mp he)

/-- C3: for each of the two index tables, the flat ids recorded across all
partitions' local sub-tables are exactly `{0 .. N-1}`, each id appearing in
exactly one partition, and every recorded entry carries its name's original
flat id unchanged. -/
theorem C3_flat_id_exact_cover (M : List PGlobal) (fvarsL gvarsL : List String)
    (T : Nat) (hT : 0 < T) (hnames : (M.map PGlobal.name).Nodup)
    (hfnd : fvarsL.Nodup) (hgnd : gvarsL.Nodup)
    (hfcov : ∀ nm ∈ fvarsL, nm ∈ (M.filter partitionable).map PGlobal.name)
    (hgcov : ∀ nm ∈ gvarsL, nm ∈ (M.filter partitionable).map PGlobal.name) :
    ((allFvars (partitionModule M fvarsL gvarsL T)).map Prod.snd).Perm
        (List.range fvarsL.length)
      ∧ (∀ e ∈ allFvars (partitionModule M fvarsL gvarsL T),
          flatId? fvarsL e.1 = some e.2)
      ∧ ((allGvars (partitionModule M fvarsL gvarsL T)).map Prod.snd).Perm
        (List.range gvarsL.length)
      ∧ (∀ e ∈ allGvars (partitionModule M fvarsL gvarsL T),
          flatId? gvarsL e.1 = some e.2) := by
  obtain ⟨stf, hAInv, hzero⟩ := partitionModule_final M fvarsL gvarsL T hT
  obtain ⟨-, -, -, -, -, -, -, -, -, -, h11, h12⟩ := hAInv
  have hf := table_fold_perm M fvarsL stf
    (allFvars (partitionModule M fvarsL gvarsL T)) h11 hzero hnames hfnd hfcov
  have hg := table_fold_perm M gvarsL stf
    (allGvars (partitionModule M fvarsL gvarsL T)) h12 hzero hnames hgnd hgcov
  exact ⟨hf.1, hf.2, hg.1, hg.2⟩

theorem C3_witness :
    0 < 2 ∧ (exM.map PGlobal.name).Nodup
      ∧ (["a", "c"] : List String).Nodup ∧ (["b"] : List String).Nodup
      ∧ (∀ nm ∈ (["a", "c"] : List String),
          nm ∈ (exM.filter partitionable).map PGlobal.name)
      ∧ (∀ nm ∈ (["b"] : List String),
          nm ∈ (exM.filter partitionable).map PGlobal.name)
      ∧ (((allFvars (partitionModule exM ["a", "c"] ["b"] 2)).map Prod.snd).Perm
            (List.range (["a", "c"] : List String).length)
          ∧ (∀ e ∈ allFvars (partitionModule exM ["a", "c"] ["b"] 2),
              flatId? ["a", "c"] e.1 = some e.2)
          ∧ ((allGvars (partitionModule exM ["a", "c"] ["b"] 2)).map Prod.snd).Perm
            (List.range (["b"] : List String).length)
          ∧ (∀ e ∈ allGvars (partitionModule exM ["a", "c"] ["b"] 2),
              flatId? ["b"] e.1 = some e.2)) :=
  ⟨by decide, by decide, by decide, by decide, by decide, by decide,
    C3_flat_id_exact_cover exM ["a", "c"] ["b"] 2 (by decide) (by decide) (by decide)
      (by decide) (by decide) (by decide)⟩

/-- C4: the assignment loop visits connectivity roots in descending order of
accumulated component weight (the sorted index list is a descending-weight
permutation of the node range), and whenever a root still carries its
component weight, the step deposits it into the partition of currently
smallest weight: the chosen index is `minIdx`, which is weight-minimal among
the `T` partitions; exactly that partition is updated, receiving the root's
entry and absorbing the component's weight; all other partitions are
untouched. -/
theorem C4_greedy_lpt (M : List PGlobal) (fvarsL gvarsL : List String)
    (sp : UFState × List Partition) (root T : Nat)
    (hT : 0 < T) (hlen : sp.2.length = T) (hw : sp.1.weight root ≠ 0) :
    (sortDesc (mergePhase M (buildNodes M)).weight
        (List.range (mergePhase M (buildNodes M)).n)).Perm
        (List.range (mergePhase M (buildNodes M)).n)
      ∧ (sortDesc (mergePhase M (buildNodes M)).weight
          (List.range (mergePhase M (buildNodes M)).n)).Pairwise
          (fun a b => (mergePhase M (buildNodes M)).weight b
            ≤ (mergePhase M (buildNodes M)).weight a)
      ∧ minIdx sp.2 < T
      ∧ (∀ j, j < T →
          (sp.2.getD (minIdx sp.2) default).weight ≤ (sp.2.getD j default).weight)
      ∧ (assignRoot fvarsL gvarsL sp root).2
          = sp.2.set (minIdx sp.2)
              { insertEntries fvarsL gvarsL (sp.1.gv root)
                  (sp.2.getD (minIdx sp.2) default) with
                weight := (insertEntries fvarsL gvarsL (sp.1.gv root)
                  (sp.2.getD (minIdx sp.2) default)).weight + sp.1.weight root }
      ∧ ((assignRoot fvarsL gvarsL sp root).2.getD (minIdx sp.2) default).weight
          = (sp.2.getD (minIdx sp.2) default).weight + sp.1.weight root
      ∧ (∀ j, j < T → j ≠ minIdx sp.2 →
          (assignRoot fvarsL gvarsL sp root).2.getD j default
            = sp.2.getD j default) := by
  have hlen0 : 0 < sp.2.length := by rw [hlen]; exact hT
  obtain ⟨hmlt, hmin⟩ := minIdx_spec sp.2 hlen0
  have hstep : (assignRoot fvarsL gvarsL sp root).2
      = sp.2.set (minIdx sp.2)
          { insertEntries fvarsL gvarsL (sp.1.gv root)
              (sp.2.getD (minIdx sp.2) default) with
            weight := (insertEntries fvarsL gvarsL (sp.1.gv root)
              (sp.2.getD (minIdx sp.2) default)).weight + sp.1.weight root } := by
    unfold assignRoot
    rw [if_pos hw]
  refine ⟨sortDesc_perm _ _, sortDesc_sorted _ _,
    by rw [hlen] at hmlt; exact hmlt,
    fun j hj => hmin j (by rw [hlen]; exact hj), hstep, ?_, ?_⟩
  · rw [hstep, getD_set_self sp.2 (minIdx sp.2) hmlt]
    show (insertEntries fvarsL gvarsL (sp.1.gv root)
        (sp.2.getD (minIdx sp.2) default)).weight + sp.1.weight root = _
    rw [insertEntries_weight]
  · intro j hj hne
    rw [hstep]
    exact getD_set_other sp.2 (minIdx sp.2) j hne _

theorem C4_witness :
    0 < 2 ∧ exSP.2.length = 2 ∧ exSP.1.weight 0 ≠ 0
      ∧ ((sortDesc (mergePhase exM (buildNodes exM)).weight
            (List.range (mergePhase exM (buildNodes exM)).n)).Perm
            (List.range (mergePhase exM (buildNodes exM)).n)
          ∧ (sortDesc (mergePhase exM (buildNodes exM)).weight
              (List.range (mergePhase exM (buildNodes exM)).n)).Pairwise
              (fun a b => (mergePhase exM (buildNodes exM)).weight b
                ≤ (mergePhase exM (buildNodes exM)).weight a)
          ∧ minIdx exSP.2 < 2
          ∧ (∀ j, j < 2 →
              (exSP.2.getD (minIdx exSP.2) default).weight
                ≤ (exSP.2.getD j default).weight)
          ∧ (assignRoot ["a", "c"] ["b"] exSP 0).2
              = exSP.2.set (minIdx exSP.2)
                  { insertEntries ["a", "c"] ["b"] (exSP.1.gv 0)
                      (exSP.2.getD (minIdx exSP.2) default) with
                    weight := (insertEntries ["a", "c"] ["b"] (exSP.1.gv 0)
                      (exSP.2.getD (minIdx exSP.2) default)).weight
                        + exSP.1.weight 0 }
          ∧ ((assignRoot ["a", "c"] ["b"] exSP 0).2.getD (minIdx exSP.2)
              default).weight
              = (exSP.2.getD (minIdx exSP.2) default).weight + exSP.1.weight 0
          ∧ (∀ j, j < 2 → j ≠ minIdx exSP.2 →
              (assignRoot ["a", "c"] ["b"] exSP 0).2.getD j default
                = exSP.2.getD j default)) :=
  ⟨by decide, by rfl, by decide,
    C4_greedy_lpt exM ["a", "c"] ["b"] exSP 0 2 (by decide) (by rfl) (by decide)⟩

/-! ### Materializer: id bookkeeping -/

theorem le_maxId (Mod : List MGlobal) : ∀ g ∈ Mod, g.id ≤ maxId Mod := by
  unfold maxId
  induction Mod with
  | nil => intro g h; cases h
  | cons a t ih =>
    intro g hg
    rw [List.map_cons, List.foldr_cons]
    rcases List.mem_cons.mp hg with he | ht
    · rw [he]; exact Nat.le_max_left _ _
    · exact le_trans (ih g ht) (Nat.le_max_right _ _)

theorem freshId_not_mem_ids (Mod : List MGlobal) :
    freshId Mod ∉ Mod.map MGlobal.id := by
  intro h
  obtain ⟨g, hg, hgid⟩ := List.mem_map.mp h
  have := le_maxId Mod g hg
  unfold freshId at hgid
  omega

theorem map_ids_of_pres (f : MGlobal → MGlobal) (hf : ∀ g, (f g).id = g.id)
    (Mod : List MGlobal) : (Mod.map f).map MGlobal.id = Mod.map MGlobal.id := by
  rw [List.map_map]
  exact List.map_congr_left (fun g _ => hf g)

theorem takeName_ids (Mod : List MGlobal) (aid pid : Nat) :
    (takeName Mod aid pid).map MGlobal.id = Mod.map MGlobal.id := by
  unfold takeName
  exact map_ids_of_pres _ (fun g => by by_cases h : g.id = pid <;> simp [h]) Mod

theorem rauw_ids (Mod : List MGlobal) (aid pid : Nat) :
    (rauw Mod aid pid).map MGlobal.id = Mod.map MGlobal.id := by
  unfold rauw
  exact map_ids_of_pres
    (fun g => { g with ops := g.ops.map (fun o => if o = aid then pid else o) })
    (fun g => rfl) Mod

theorem stripPlaceholder_ids (Mod : List MGlobal) (pid : Nat) :
    (stripPlaceholder Mod pid).map MGlobal.id = Mod.map MGlobal.id := by
  unfold stripPlaceholder
  exact map_ids_of_pres _ (fun g => by by_cases h : g.id = pid <;> simp [h]) Mod

theorem setAliasee_ids (Mod : List MGlobal) (aid pid : Nat) :
    (setAliasee Mod aid pid).map MGlobal.id = Mod.map MGlobal.id := by
  unfold setAliasee
  exact map_ids_of_pres _ (fun g => by by_cases h : g.id = aid <;> simp [h]) Mod

theorem deleteStep_ids_sublist (Mod : List MGlobal) (d : Nat × Nat) :
    ((deleteStep Mod d).map MGlobal.id).Sublist (Mod.map MGlobal.id) := by
  unfold deleteStep
  rw [stripPlaceholder_ids]
  have h1 : (rauw (takeName Mod d.1 d.2) d.1 d.2).map MGlobal.id
      = Mod.map MGlobal.id := by
    rw [rauw_ids, takeName_ids]
  rw [← h1]
  exact List.Sublist.map MGlobal.id (List.filter_sublist _)

theorem deleteStep_id_absent (Mod : List MGlobal) (d : Nat × Nat) (x : Nat)
    (h : ∀ g ∈ Mod, g.id ≠ x) : ∀ g ∈ deleteStep Mod d, g.id ≠ x := by
  intro g hg
  have hmem : g.id ∈ (deleteStep Mod d).map MGlobal.id := List.mem_map_of_mem _ hg
  obtain ⟨g0, hg0, hid⟩ :=
    List.mem_map.mp ((deleteStep_ids_sublist Mod d).subset hmem)
  rw [← hid]
  exact h g0 hg0

/-- An entry untouched by a deletion step survives with its operands
substituted. -/
theorem deleteStep_entry_image (Mod : List MGlobal) (d : Nat × Nat) (u : MGlobal)
    (hu : u ∈ Mod) (ha : u.id ≠ d.1) (hp : u.id ≠ d.2) :
    { u with ops := u.ops.map (fun o => if o = d.1 then d.2 else o) }
      ∈ deleteStep Mod d := by
  unfold deleteStep
  have h1 : u ∈ takeName Mod d.1 d.2 := by
    unfold takeName
    have he : (fun g => if g.id = d.2 then { g with name := lookupName Mod d.1 }
        else g) u = u := by
      dsimp only
      rw [if_neg hp]
    rw [← he]
    exact List.mem_map_of_mem _ hu
  have h2 : { u with ops := u.ops.map (fun o => if o = d.1 then d.2 else o) }
      ∈ rauw (takeName Mod d.1 d.2) d.1 d.2 :=
    List.mem_map_of_mem _ h1
  have h3 : { u with ops := u.ops.map (fun o => if o = d.1 then d.2 else o) }
      ∈ eraseId (rauw (takeName Mod d.1 d.2) d.1 d.2) d.1 := by
    unfold eraseId
    apply List.mem_filter.mpr
    exact ⟨h2, by simpa using ha⟩
  have he : (fun g => if g.id = d.2 then { g with hasBody := false, ops := [] }
      else g) { u with ops := u.ops.map (fun o => if o = d.1 then d.2 else o) }
      = { u with ops := u.ops.map (fun o => if o = d.1 then d.2 else o) } := by
    dsimp only
    rw [if_neg hp]
  unfold stripPlaceholder
  rw [← he]
  exact List.mem_map_of_mem _ h3

theorem deleteStep_ops_absent (Mod : List MGlobal) (d : Nat × Nat) (x : Nat)
    (h : ∀ v ∈ Mod, x ∉ v.ops) (hx : d.2 ≠ x) :
    ∀ v ∈ deleteStep Mod d, x ∉ v.ops := by
  intro v hv
  unfold deleteStep at hv
  obtain ⟨v3, hv3, hv3e⟩ := List.mem_map.mp hv
  have hv3f := (List.mem_filter.mp hv3).1
  obtain ⟨v1, hv1, hv1e⟩ := List.mem_map.mp hv3f
  obtain ⟨v0, hv0, hv0e⟩ := List.mem_map.mp hv1
  have hv1ops : v1.ops = v0.ops := by
    rw [← hv0e]
    by_cases hc : v0.id = d.2 <;> simp [hc]
  have hv3ops : v3.ops = v1.ops.map (fun o => if o = d.1 then d.2 else o) := by
    rw [← hv1e]
  have hvops : v.ops = v3.ops ∨ v.ops = [] := by
    rw [← hv3e]
    by_cases hc : v3.id = d.2
    · right; simp [hc]
    · left; simp [hc]
  rcases hvops with hvo | hvo
  · rw [hvo, hv3ops, hv1ops]
    intro hmem
    obtain ⟨o, ho, hoe⟩ := List.mem_map.mp hmem
    by_cases hc : o = d.1
    · rw [if_pos hc] at hoe
      exact hx hoe
    · rw [if_neg hc] at hoe
      exact h v0 hv0 (hoe ▸ ho)
  · rw [hvo]
    exact List.not_mem_nil x

/-- After its own deletion step, the alias is gone, nothing references it, and
the placeholder carries its name as a stripped declaration. -/
theorem deleteStep_fire (Mod : List MGlobal) (a p : Nat) (hap : a ≠ p)
    (hnd : (Mod.map MGlobal.id).Nodup)
    (A : MGlobal) (hA : A ∈ Mod) (hAid : A.id = a)
    (P : MGlobal) (hP : P ∈ Mod) (hPid : P.id = p) :
    (∃ g ∈ deleteStep Mod (a, p),
        g.id = p ∧ g.name = A.name ∧ g.hasBody = false ∧ g.ops = [])
      ∧ (∀ g ∈ deleteStep Mod (a, p), g.id ≠ a)
      ∧ (∀ v ∈ deleteStep Mod (a, p), a ∉ v.ops) := by
  have hsome : (Mod.find? (fun g => g.id = a)).isSome := by
    rw [List.find?_isSome]
    exact ⟨A, hA, by simp [hAid]⟩
  obtain ⟨g0, hg0⟩ := Option.isSome_iff_exists.mp hsome
  have hg0mem := List.mem_of_find?_eq_some hg0
  have hg0id : g0.id = a := by simpa using List.find?_some hg0
  have hg0A : g0 = A :=
    List.inj_on_of_nodup_map hnd hg0mem hA (by rw [hg0id, hAid])
  have hlook : lookupName Mod a = A.name := by
    unfold lookupName
    rw [hg0, hg0A]
    rfl
  refine ⟨?_, ?_, ?_⟩
  · -- the placeholder, renamed and stripped
    have h1 : { P with name := A.name } ∈ takeName Mod a p := by
      unfold takeName
      have he : (fun g => if g.id = p then { g with name := lookupName Mod a }
          else g) P = { P with name := A.name } := by
        dsimp only
        rw [if_pos hPid, hlook]
      rw [← he]
      exact List.mem_map_of_mem _ hP
    have h2 : { P with name := A.name, ops := P.ops.map (fun o => if o = a then p else o) }
        ∈ rauw (takeName Mod a p) a p :=
      List.mem_map_of_mem _ h1
    have h3 : { P with name := A.name, ops := P.ops.map (fun o => if o = a then p else o) }
        ∈ eraseId (rauw (takeName Mod a p) a p) a := by
      unfold eraseId
      apply List.mem_filter.mpr
      refine ⟨h2, ?_⟩
      have hPa : P.id ≠ a := by rw [hPid]; exact fun h => hap h.symm
      simpa using hPa
    refine ⟨{ P with name := A.name, hasBody := false, ops := [] }, ?_, hPid, rfl,
      rfl, rfl⟩
    show _ ∈ stripPlaceholder _ p
    unfold stripPlaceholder
    have he : (fun g => if g.id = p then { g with hasBody := false, ops := [] }
        else g) { P with name := A.name, ops := P.ops.map (fun o => if o = a then p else o) }
        = { P with name := A.name, hasBody := false, ops := [] } := by
      dsimp only
      rw [if_pos hPid]
    rw [← he]
    exact List.mem_map_of_mem _ h3
  · -- no entry with the alias's id remains
    intro g hg
    unfold deleteStep at hg
    obtain ⟨g3, hg3, hge⟩ := List.mem_map.mp hg
    have hgid : g.id = g3.id := by
      rw [← hge]
      by_cases hc : g3.id = p <;> simp [hc]
    have := (List.mem_filter.mp hg3).2
    rw [hgid]
    simpa using this
  · -- no operand references the alias's id
    intro v hv
    unfold deleteStep at hv
    obtain ⟨v3, hv3, hv3e⟩ := List.mem_map.mp hv
    have hv3f := (List.mem_filter.mp hv3).1
    obtain ⟨v1, hv1, hv1e⟩ := List.mem_map.mp hv3f
    have hv3ops : v3.ops = v1.ops.map (fun o => if o = a then p else o) := by
      rw [← hv1e]
    have hvops : v.ops = v3.ops ∨ v.ops = [] := by
      rw [← hv3e]
      by_cases hc : v3.id = p
      · right; simp [hc]
      · left; simp [hc]
    rcases hvops with hvo | hvo
    · rw [hvo, hv3ops]
      intro hmem
      obtain ⟨o, ho, hoe⟩ := List.mem_map.mp hmem
      by_cases hc : o = a
      · rw [if_pos hc] at hoe
        exact hap hoe.symm
      · rw [if_neg hc] at hoe
        exact hc hoe
    · rw [hvo]
      exact List.not_mem_nil a

theorem deleteFold_nodup :
    ∀ (l : List (Nat × Nat)) (Mod : List MGlobal),
      (Mod.map MGlobal.id).Nodup → ((l.foldl deleteStep Mod).map MGlobal.id).Nodup := by
  intro l
  induction l with
  | nil => exact fun Mod h => h
  | cons d l ih =>
    intro Mod h
    simp only [List.foldl_cons]
    exact ih _ (h.sublist (deleteStep_ids_sublist Mod d))

theorem deleteFold_absent (x : Nat) :
    ∀ (l : List (Nat × Nat)) (Mod : List MGlobal),
      (∀ g ∈ Mod, g.id ≠ x) → ∀ g ∈ l.foldl deleteStep Mod, g.id ≠ x := by
  intro l
  induction l with
  | nil => exact fun Mod h => h
  | cons d l ih =>
    intro Mod h
    simp only [List.foldl_cons]
    exact ih _ (deleteStep_id_absent Mod d x h)

theorem deleteFold_ops_absent (x : Nat) :
    ∀ (l : List (Nat × Nat)) (Mod : List MGlobal),
      (∀ d ∈ l, d.2 ≠ x) → (∀ v ∈ Mod, x ∉ v.ops) →
      ∀ v ∈ l.foldl deleteStep Mod, x ∉ v.ops := by
  intro l
  induction l with
  | nil => exact fun Mod _ h => h
  | cons d l ih =>
    intro Mod hl h
    simp only [List.foldl_cons]
    exact ih _ (fun e he => hl e (List.mem_cons_of_mem d he))
      (deleteStep_ops_absent Mod d x h (hl d (List.mem_cons_self d l)))

/-- An entry whose id is untouched keeps its id and name across the deletion
loop. -/
theorem deleteFold_keep (x : Nat) (nm : String) :
    ∀ (l : List (Nat × Nat)) (Mod : List MGlobal),
      (∀ d ∈ l, d.1 ≠ x ∧ d.2 ≠ x) →
      (∃ g ∈ Mod, g.id = x ∧ g.name = nm) →
      ∃ g ∈ l.foldl deleteStep Mod, g.id = x ∧ g.name = nm := by
  intro l
  induction l with
  | nil => exact fun Mod _ h => h
  | cons d l ih =>
    intro Mod hl h
    obtain ⟨g, hg, hgid, hgnm⟩ := h
    simp only [List.foldl_cons]
    refine ih _ (fun e he => hl e (List.mem_cons_of_mem d he)) ?_
    obtain ⟨h1, h2⟩ := hl d (List.mem_cons_self d l)
    refine ⟨{ g with ops := g.ops.map (fun o => if o = d.1 then d.2 else o) },
      deleteStep_entry_image Mod d g hg (by rw [hgid]; exact fun he => h1 he.symm)
        (by rw [hgid]; exact fun he => h2 he.symm), hgid, hgnm⟩

/-- A stripped, emptied declaration keeps all its fields across the deletion
loop. -/
theorem deleteFold_keep_decl (x : Nat) (nm : String) :
    ∀ (l : List (Nat × Nat)) (Mod : List MGlobal),
      (∀ d ∈ l, d.1 ≠ x ∧ d.2 ≠ x) →
      (∃ g ∈ Mod, g.id = x ∧ g.name = nm ∧ g.hasBody = false ∧ g.ops = []) →
      ∃ g ∈ l.foldl deleteStep Mod,
        g.id = x ∧ g.name = nm ∧ g.hasBody = false ∧ g.ops = [] := by
  intro l
  induction l with
  | nil => exact fun Mod _ h => h
  | cons d l ih =>
    intro Mod hl h
    obtain ⟨g, hg, hgid, hgnm, hgb, hgops⟩ := h
    simp only [List.foldl_cons]
    refine ih _ (fun e he => hl e (List.mem_cons_of_mem d he)) ?_
    obtain ⟨h1, h2⟩ := hl d (List.mem_cons_self d l)
    refine ⟨{ g with ops := g.ops.map (fun o => if o = d.1 then d.2 else o) },
      deleteStep_entry_image Mod d g hg (by rw [hgid]; exact fun he => h1 he.symm)
        (by rw [hgid]; exact fun he => h2 he.symm), hgid, hgnm, hgb, ?_⟩
    show g.ops.map (fun o => if o = d.1 then d.2 else o) = []
    rw [hgops]
    rfl

/-- A user entry evolves by operand substitution only; the image of a chosen
operand value stays fixed across the deletion loop. -/
theorem deleteFold_track (uid v0 a0 : Nat) (uops : List Nat) :
    ∀ (l : List (Nat × Nat)) (Mod : List MGlobal),
      (∀ d ∈ l, d.1 ≠ uid ∧ d.2 ≠ uid ∧ d.1 ≠ v0) →
      (∃ u1 ∈ Mod, u1.id = uid ∧ ∃ f : Nat → Nat, u1.ops = uops.map f ∧ f a0 = v0) →
      ∃ u1 ∈ l.foldl deleteStep Mod,
        u1.id = uid ∧ ∃ f : Nat → Nat, u1.ops = uops.map f ∧ f a0 = v0 := by
  intro l
  induction l with
  | nil => exact fun Mod _ h => h
  | cons d l ih =>
    intro Mod hl h
    obtain ⟨u1, hu1, huid, f, hfops, hfv⟩ := h
    simp only [List.foldl_cons]
    refine ih _ (fun e he => hl e (List.mem_cons_of_mem d he)) ?_
    obtain ⟨h1, h2, h3⟩ := hl d (List.mem_cons_self d l)
    refine ⟨{ u1 with ops := u1.ops.map (fun o => if o = d.1 then d.2 else o) },
      deleteStep_entry_image Mod d u1 hu1 (by rw [huid]; exact fun he => h1 he.symm)
        (by rw [huid]; exact fun he => h2 he.symm), huid,
      (fun o => if o = d.1 then d.2 else o) ∘ f, ?_, ?_⟩
    · show u1.ops.map (fun o => if o = d.1 then d.2 else o) = _
      rw [hfops, List.map_map]
    · show (if f a0 = d.1 then d.2 else f a0) = v0
      rw [hfv, if_neg (fun he => h3 he.symm)]

/-! ### Materializer: the alias loop -/

theorem mem_preserveNames (part : List (String × Bool)) (nm : String) :
    nm ∈ preserveNames part ↔ (nm, true) ∈ part := by
  unfold preserveNames
  rw [List.mem_filterMap]
  constructor
  · rintro ⟨p, hp, hpe⟩
    by_cases hb : p.2 = true
    · rw [if_pos hb] at hpe
      injection hpe with hnm
      have hpnt : p = (nm, true) := by
        rw [← hnm, ← hb]
      rw [← hpnt]
      exact hp
    · rw [if_neg hb] at hpe
      cases hpe
  · intro h
    exact ⟨(nm, true), h, rfl⟩

theorem preserveNames_sub (part : List (String × Bool)) (nm : String)
    (h : nm ∈ preserveNames part) : nm ∈ part.map Prod.fst := by
  rw [mem_preserveNames] at h
  exact List.mem_map_of_mem Prod.fst h

theorem aliasStep_J (pres : List String) (Mod0 : List MGlobal)
    (acc : List MGlobal × List (Nat × Nat)) (a : MGlobal) (hJ : JInv Mod0 acc) :
    JInv Mod0 (aliasStep pres acc a)
    ∧ ((aliasStep pres acc a).2 = acc.2
        ∨ (aliasStep pres acc a).2 = acc.2 ++ [(a.id, freshId acc.1)]) := by
  obtain ⟨j1, j2⟩ := hJ
  by_cases hg : a.name ∉ pres ∧ ¬a.localLinkage
  · have hstep : aliasStep pres acc a
        = (setAliasee acc.1 a.id (freshId acc.1) ++ [mkPlaceholder a (freshId acc.1)],
            acc.2 ++ [(a.id, freshId acc.1)]) := by
      unfold aliasStep
      rw [if_pos hg]
    rw [hstep]
    have hpnot : freshId acc.1 ∉ acc.1.map MGlobal.id := freshId_not_mem_ids acc.1
    constructor
    · constructor
      · show (setAliasee acc.1 a.id (freshId acc.1)
            ++ [mkPlaceholder a (freshId acc.1)]).map MGlobal.id
          = Mod0.map MGlobal.id ++ (acc.2 ++ [(a.id, freshId acc.1)]).map Prod.snd
        rw [List.map_append, setAliasee_ids, j1, List.map_append, List.append_assoc]
        rfl
      · show ((setAliasee acc.1 a.id (freshId acc.1)
            ++ [mkPlaceholder a (freshId acc.1)]).map MGlobal.id).Nodup
        rw [List.map_append, setAliasee_ids]
        rw [List.nodup_append]
        refine ⟨j2, by simp, ?_⟩
        intro x hx
        have : (mkPlaceholder a (freshId acc.1)).id = freshId acc.1 := rfl
        simp only [List.map_cons, List.map_nil, this]
        intro hx2
        rw [List.mem_singleton] at hx2
        rw [hx2] at hx
        exact hpnot hx
    · right
      rfl
  · have hstep : aliasStep pres acc a = acc := by
      unfold aliasStep
      rw [if_neg hg]
    rw [hstep]
    exact ⟨⟨j1, j2⟩, Or.inl rfl⟩

theorem aliasFold_J (pres : List String) (Mod0 : List MGlobal) :
    ∀ (al : List MGlobal) (acc : List MGlobal × List (Nat × Nat)),
      JInv Mod0 acc →
      JInv Mod0 (al.foldl (aliasStep pres) acc)
      ∧ ∃ ext, (al.foldl (aliasStep pres) acc).2 = acc.2 ++ ext
          ∧ ∀ d ∈ ext, ∃ a ∈ al, d.1 = a.id := by
  intro al
  induction al with
  | nil =>
    intro acc h
    exact ⟨h, [], by simp, fun d hd => absurd hd (List.not_mem_nil d)⟩
  | cons a al ih =>
    intro acc h
    simp only [List.foldl_cons]
    obtain ⟨hJ', hor⟩ := aliasStep_J pres Mod0 acc a h
    obtain ⟨ihJ, ext, hext, hextP⟩ := ih (aliasStep pres acc a) hJ'
    refine ⟨ihJ, ?_⟩
    rcases hor with h0 | h1
    · refine ⟨ext, by rw [hext, h0], ?_⟩
      intro d hd
      obtain ⟨a', ha', he⟩ := hextP d hd
      exact ⟨a', List.mem_cons_of_mem a ha', he⟩
    · refine ⟨(a.id, freshId acc.1) :: ext, ?_, ?_⟩
      · rw [hext, h1, List.append_assoc]
        rfl
      · intro d hd
        rcases List.mem_cons.mp hd with he | ht
        · exact ⟨a, List.mem_cons_self a al, by rw [he]⟩
        · obtain ⟨a', ha', he⟩ := hextP d ht
          exact ⟨a', List.mem_cons_of_mem a ha', he⟩

/-- An entry whose id is no processed alias's id survives the alias loop
untouched. -/
theorem aliasFold_keep (pres : List String) :
    ∀ (al : List MGlobal) (acc : List MGlobal × List (Nat × Nat)) (g : MGlobal),
      g ∈ acc.1 → (∀ a ∈ al, g.id ≠ a.id) →
      g ∈ (al.foldl (aliasStep pres) acc).1 := by
  intro al
  induction al with
  | nil => exact fun acc g hg _ => hg
  | cons a al ih =>
    intro acc g hg hne
    simp only [List.foldl_cons]
    apply ih
    · unfold aliasStep
      by_cases hc : a.name ∉ pres ∧ ¬a.localLinkage
      · rw [if_pos hc]
        show g ∈ setAliasee acc.1 a.id (freshId acc.1)
          ++ [mkPlaceholder a (freshId acc.1)]
        apply List.mem_append_left
        unfold setAliasee
        have he : (fun x => if x.id = a.id then { x with ops := [freshId acc.1] }
            else x) g = g := by
          dsimp only
          rw [if_neg (hne a (List.mem_cons_self a al))]
        rw [← he]
        exact List.mem_map_of_mem _ hg
      · rw [if_neg hc]
        exact hg
    · exact fun a' ha' => hne a' (List.mem_cons_of_mem a ha')

/-! ### Materializer: surviving the mark and strip phases -/

theorem markInternal_skip (part : List (String × Bool)) (g : MGlobal)
    (h : (g.name, false) ∉ part) : markInternal part g = g := by
  unfold markInternal
  rw [if_neg h]

theorem stripFunc_skip_alias (pres : List String) (g : MGlobal)
    (h : g.kind = MKind.Alias) : stripFunc pres g = g := by
  unfold stripFunc
  rw [if_neg]
  intro hcon
  rw [h] at hcon
  exact MKind.noConfusion hcon.1

theorem stripVar_skip_alias (pres : List String) (g : MGlobal)
    (h : g.kind = MKind.Alias) : stripVar pres g = g := by
  unfold stripVar
  rw [if_neg]
  intro hcon
  rw [h] at hcon
  exact MKind.noConfusion hcon.1

theorem stripFunc_skip_pres (pres : List String) (g : MGlobal)
    (h : g.name ∈ pres) : stripFunc pres g = g := by
  unfold stripFunc
  rw [if_neg]
  exact fun hcon => hcon.2.2.2 h

theorem stripVar_skip_pres (pres : List String) (g : MGlobal)
    (h : g.name ∈ pres) : stripVar pres g = g := by
  unfold stripVar
  rw [if_neg]
  exact fun hcon => hcon.2.2.1 h

theorem markInternal_ids (part : List (String × Bool)) (Mod : List MGlobal) :
    (Mod.map (markInternal part)).map MGlobal.id = Mod.map MGlobal.id := by
  apply map_ids_of_pres
  intro g
  unfold markInternal
  by_cases h : (g.name, false) ∈ part <;> simp [h]

theorem stripFunc_ids (pres : List String) (Mod : List MGlobal) :
    (Mod.map (stripFunc pres)).map MGlobal.id = Mod.map MGlobal.id := by
  apply map_ids_of_pres
  intro g
  unfold stripFunc
  by_cases h : g.kind = MKind.Func ∧ g.hasBody ∧ ¬g.localLinkage ∧ g.name ∉ pres
  · rw [if_pos h]
  · rw [if_neg h]

theorem stripVar_ids (pres : List String) (Mod : List MGlobal) :
    (Mod.map (stripVar pres)).map MGlobal.id = Mod.map MGlobal.id := by
  apply map_ids_of_pres
  intro g
  unfold stripVar
  by_cases h : g.kind = MKind.Var ∧ g.hasBody ∧ g.name ∉ pres ∧ ¬g.localLinkage
  · rw [if_pos h]
  · rw [if_neg h]

/-- C7: after materialization of a shard, a global alias that is not in the
shard's partition (and is not local) has been deleted: no value with its id
remains and no surviving value's operands reference it; a single fresh
replacement carries the alias's original name and is a plain declaration with
no body and no operands; and every preserved user's operand positions that
referenced the alias now reference the replacement. -/
theorem C7_alias_materialization (Mod : List MGlobal) (part : List (String × Bool))
    (GA : MGlobal)
    (hids : (Mod.map MGlobal.id).Nodup)
    (hpart : (part.map Prod.fst).Nodup)
    (hGAmem : GA ∈ Mod) (hGAkind : GA.kind = MKind.Alias)
    (hGAname : GA.name ∉ part.map Prod.fst)
    (hGAloc : GA.localLinkage = false) :
    ∃ pid, pid ∉ Mod.map MGlobal.id
      ∧ ((materializePreserved Mod part).map MGlobal.id).Nodup
      ∧ (∀ g ∈ materializePreserved Mod part, g.id ≠ GA.id)
      ∧ (∃ g ∈ materializePreserved Mod part,
          g.id = pid ∧ g.name = GA.name ∧ g.hasBody = false ∧ g.ops = [])
      ∧ (∀ v ∈ materializePreserved Mod part, GA.id ∉ v.ops)
      ∧ (∀ u ∈ Mod, u.kind ≠ MKind.Alias → u.name ∈ preserveNames part →
          ∀ w ∈ materializePreserved Mod part, w.id = u.id →
            w.ops.length = u.ops.length
            ∧ ∀ k, k < u.ops.length → u.ops.getD k 0 = GA.id →
                w.ops.getD k 0 = pid) := by
  set pres := preserveNames part with hpres
  set M3 := ((Mod.map (markInternal part)).map (stripFunc pres)).map (stripVar pres)
    with hM3
  have hmain : materializePreserved Mod part
      = (aliasPhase pres M3).2.foldl deleteStep (aliasPhase pres M3).1 := rfl
  have hM3ids : M3.map MGlobal.id = Mod.map MGlobal.id := by
    rw [hM3, stripVar_ids, stripFunc_ids, markInternal_ids]
  have hM3nd : (M3.map MGlobal.id).Nodup := by
    rw [hM3ids]
    exact hids
  -- the alias survives the mark/strip phases untouched
  have hGAf : (GA.name, false) ∉ part :=
    fun h => hGAname (List.mem_map_of_mem Prod.fst h)
  have hGAnp : GA.name ∉ pres :=
    fun h => hGAname (preserveNames_sub part GA.name h)
  have hGA3img : stripVar pres (stripFunc pres (markInternal part GA)) = GA := by
    rw [markInternal_skip part GA hGAf, stripFunc_skip_alias pres GA hGAkind,
      stripVar_skip_alias pres GA hGAkind]
  have hGA3 : GA ∈ M3 := by
    rw [hM3, ← hGA3img]
    exact List.mem_map_of_mem _ (List.mem_map_of_mem _ (List.mem_map_of_mem _ hGAmem))
  -- preserved non-alias users survive the mark/strip phases untouched
  have hu3 : ∀ u ∈ Mod, u.kind ≠ MKind.Alias → u.name ∈ pres → u ∈ M3 := by
    intro u hu huk hup
    have huf : (u.name, false) ∉ part := by
      intro hmem
      have hut : (u.name, true) ∈ part := (mem_preserveNames part u.name).mp hup
      have := List.inj_on_of_nodup_map hpart hut hmem rfl
      simp at this
    have himg : stripVar pres (stripFunc pres (markInternal part u)) = u := by
      rw [markInternal_skip part u huf, stripFunc_skip_pres pres u hup,
        stripVar_skip_pres pres u hup]
    rw [hM3, ← himg]
    exact List.mem_map_of_mem _ (List.mem_map_of_mem _ (List.mem_map_of_mem _ hu))
  -- split the alias traversal around `GA`
  have hGAal : GA ∈ M3.filter (fun g => g.kind = MKind.Alias) :=
    List.mem_filter.mpr ⟨hGA3, by simp [hGAkind]⟩
  obtain ⟨s1, s2, hsplit⟩ := List.mem_iff_append.mp hGAal
  have halid : ((M3.filter (fun g => g.kind = MKind.Alias)).map MGlobal.id).Nodup :=
    hM3nd.sublist (List.Sublist.map MGlobal.id (List.filter_sublist M3))
  have halids : (s1.map MGlobal.id ++ GA.id :: s2.map MGlobal.id).Nodup := by
    have he : (M3.filter (fun g => g.kind = MKind.Alias)).map MGlobal.id
        = s1.map MGlobal.id ++ GA.id :: s2.map MGlobal.id := by
      rw [hsplit, List.map_append, List.map_cons]
    rw [← he]
    exact halid
  obtain ⟨hnds1, hnds2c, hdisj12⟩ := List.nodup_append.mp halids
  have hGAs1 : ∀ a ∈ s1, GA.id ≠ a.id := by
    intro a ha he
    exact hdisj12 (he ▸ List.mem_map_of_mem MGlobal.id ha)
      (List.mem_cons_self _ _)
  have hGAs2 : ∀ a ∈ s2, GA.id ≠ a.id := by
    intro a ha he
    exact (List.nodup_cons.mp hnds2c).1 (he ▸ List.mem_map_of_mem MGlobal.id ha)
  have hs1M3 : ∀ a ∈ s1, a ∈ M3 := by
    intro a ha
    have : a ∈ M3.filter (fun g => g.kind = MKind.Alias) := by
      rw [hsplit]
      exact List.mem_append_left _ ha
    exact (List.mem_filter.mp this).1
  have hs2M3 : ∀ a ∈ s2, a ∈ M3 := by
    intro a ha
    have : a ∈ M3.filter (fun g => g.kind = MKind.Alias) := by
      rw [hsplit]
      exact List.mem_append_right _ (List.mem_cons_of_mem _ ha)
    exact (List.mem_filter.mp this).1
  -- run the alias loop up to `GA`
  obtain ⟨acc1, hacc1⟩ : ∃ acc1, s1.foldl (aliasStep pres) (M3, []) = acc1 := ⟨_, rfl⟩
  have hJ0 : JInv M3 (M3, []) := ⟨by simp, hM3nd⟩
  obtain ⟨hJ1x, ext1, hext1x, hext1P⟩ := aliasFold_J pres M3 s1 (M3, []) hJ0
  rw [hacc1] at hJ1x hext1x
  have hl1fst : ∀ d ∈ acc1.2, ∃ a ∈ s1, d.1 = a.id := by
    intro d hd
    rw [hext1x] at hd
    exact hext1P d (by simpa using hd)
  obtain ⟨pid, hpid⟩ : ∃ pid, freshId acc1.1 = pid := ⟨_, rfl⟩
  have hpid_fresh : pid ∉ acc1.1.map MGlobal.id := by
    rw [← hpid]
    exact freshId_not_mem_ids _
  have hpidM3 : pid ∉ M3.map MGlobal.id := by
    intro h
    apply hpid_fresh
    rw [hJ1x.1]
    exact List.mem_append_left _ h
  -- the step at `GA`
  have hguard : GA.name ∉ pres ∧ ¬GA.localLinkage :=
    ⟨hGAnp, by rw [hGAloc]; simp⟩
  have hstep2 : aliasStep pres acc1 GA
      = (setAliasee acc1.1 GA.id pid ++ [mkPlaceholder GA pid],
          acc1.2 ++ [(GA.id, pid)]) := by
    unfold aliasStep
    rw [if_pos hguard, hpid]
  obtain ⟨hJ2x, _⟩ := aliasStep_J pres M3 acc1 GA hJ1x
  rw [hstep2] at hJ2x
  have hGAin1 : GA ∈ acc1.1 := by
    have := aliasFold_keep pres s1 (M3, []) GA hGA3 hGAs1
    rw [hacc1] at this
    exact this
  have hGAentry : { GA with ops := [pid] }
      ∈ setAliasee acc1.1 GA.id pid ++ [mkPlaceholder GA pid] := by
    apply List.mem_append_left
    unfold setAliasee
    have he : (fun x => if x.id = GA.id then { x with ops := [pid] } else x) GA
        = { GA with ops := [pid] } := by
      dsimp only
      rw [if_pos rfl]
    rw [← he]
    exact List.mem_map_of_mem _ hGAin1
  have hPentry : mkPlaceholder GA pid
      ∈ setAliasee acc1.1 GA.id pid ++ [mkPlaceholder GA pid] :=
    List.mem_append_right _ (List.mem_singleton.mpr rfl)
  -- run the remainder of the alias loop
  have hADeq : aliasPhase pres M3 = s2.foldl (aliasStep pres)
      (setAliasee acc1.1 GA.id pid ++ [mkPlaceholder GA pid],
        acc1.2 ++ [(GA.id, pid)]) := by
    unfold aliasPhase
    rw [hsplit, List.foldl_append, List.foldl_cons, hacc1, hstep2]
  obtain ⟨hJ3x, ext2, hext2x, hext2P⟩ := aliasFold_J pres M3 s2 _ hJ2x
  have hJ3 : JInv M3 (aliasPhase pres M3) := by
    rw [hADeq]
    exact hJ3x
  have hAD2 : (aliasPhase pres M3).2 = (acc1.2 ++ [(GA.id, pid)]) ++ ext2 := by
    rw [hADeq]
    exact hext2x
  have hGAentryAD : { GA with ops := [pid] } ∈ (aliasPhase pres M3).1 := by
    rw [hADeq]
    exact aliasFold_keep pres s2 _ _ hGAentry (fun a ha => hGAs2 a ha)
  have hPentryAD : mkPlaceholder GA pid ∈ (aliasPhase pres M3).1 := by
    rw [hADeq]
    apply aliasFold_keep pres s2 _ _ hPentry
    intro a ha he
    have he2 : pid = a.id := he
    apply hpidM3
    rw [he2]
    exact List.mem_map_of_mem MGlobal.id (hs2M3 a ha)
  -- id structure of the module after the alias loop
  have hADnd : ((aliasPhase pres M3).1.map MGlobal.id).Nodup := hJ3.2
  have hbig : (M3.map MGlobal.id ++ (acc1.2.map Prod.snd
      ++ pid :: ext2.map Prod.snd)).Nodup := by
    have h := hJ3.2
    rw [hJ3.1, hAD2] at h
    have he : ((acc1.2 ++ [(GA.id, pid)]) ++ ext2).map Prod.snd
        = acc1.2.map Prod.snd ++ pid :: ext2.map Prod.snd := by
      rw [List.map_append, List.map_append, List.append_assoc]
      rfl
    rw [he] at h
    exact h
  obtain ⟨hndM3ids, hndsnd, hdisjbig⟩ := List.nodup_append.mp hbig
  obtain ⟨hndl1, hndpl2, hdisj2⟩ := List.nodup_append.mp hndsnd
  have hpid_notl2 : pid ∉ ext2.map Prod.snd := (List.nodup_cons.mp hndpl2).1
  have hpid_notl1 : pid ∉ acc1.2.map Prod.snd :=
    fun h => hdisj2 h (List.mem_cons_self _ _)
  have hsnd_not_orig : ∀ d ∈ acc1.2, d.2 ∉ M3.map MGlobal.id := by
    intro d hd hmem
    exact hdisjbig hmem (List.mem_append_left _ (List.mem_map_of_mem Prod.snd hd))
  have hsnd2_not_orig : ∀ d ∈ ext2, d.2 ∉ M3.map MGlobal.id := by
    intro d hd hmem
    exact hdisjbig hmem (List.mem_append_right _
      (List.mem_cons_of_mem _ (List.mem_map_of_mem Prod.snd hd)))
  have hpid_orig : pid ∉ Mod.map MGlobal.id := by
    rw [← hM3ids]
    exact hpidM3
  have hGAidM3 : GA.id ∈ M3.map MGlobal.id := List.mem_map_of_mem MGlobal.id hGA3
  have hGApid : GA.id ≠ pid := fun he => hpidM3 (he ▸ hGAidM3)
  -- conditions on the deletion pairs before and after `(GA.id, pid)`
  have hcondA : ∀ d ∈ acc1.2, d.1 ≠ GA.id ∧ d.2 ≠ GA.id ∧ d.1 ≠ pid ∧ d.2 ≠ pid := by
    intro d hd
    obtain ⟨a, ha, hda⟩ := hl1fst d hd
    refine ⟨by rw [hda]; exact fun he => hGAs1 a ha he.symm, ?_, ?_, ?_⟩
    · exact fun he => hsnd_not_orig d hd (he ▸ hGAidM3)
    · rw [hda]
      exact fun he => hpidM3 (he ▸ List.mem_map_of_mem MGlobal.id (hs1M3 a ha))
    · exact fun he => hpid_notl1 (he ▸ List.mem_map_of_mem Prod.snd hd)
  have hcondC : ∀ d ∈ ext2, d.1 ≠ pid ∧ d.2 ≠ pid ∧ d.2 ≠ GA.id := by
    intro d hd
    obtain ⟨a, ha, hda⟩ := hext2P d hd
    refine ⟨?_, ?_, ?_⟩
    · rw [hda]
      exact fun he => hpidM3 (he ▸ List.mem_map_of_mem MGlobal.id (hs2M3 a ha))
    · exact fun he => hpid_notl2 (he ▸ List.mem_map_of_mem Prod.snd hd)
    · exact fun he => hsnd2_not_orig d hd (he ▸ hGAidM3)
  -- split the deletion loop around `(GA.id, pid)`
  have hdel : materializePreserved Mod part
      = ext2.foldl deleteStep
          (deleteStep (acc1.2.foldl deleteStep (aliasPhase pres M3).1) (GA.id, pid)) := by
    rw [hmain, hAD2, List.foldl_append, List.foldl_append, List.foldl_cons,
      List.foldl_nil]
  -- phase A: fold up to the alias's own deletion step
  have hndMA : ((acc1.2.foldl deleteStep (aliasPhase pres M3).1).map MGlobal.id).Nodup :=
    deleteFold_nodup acc1.2 _ hADnd
  obtain ⟨gA, hgA, hgAid, hgAnm⟩ :=
    deleteFold_keep GA.id GA.name acc1.2 (aliasPhase pres M3).1
      (fun d hd => ⟨(hcondA d hd).1, (hcondA d hd).2.1⟩)
      ⟨{ GA with ops := [pid] }, hGAentryAD, rfl, rfl⟩
  obtain ⟨gP, hgP, hgPid, _⟩ :=
    deleteFold_keep pid "" acc1.2 (aliasPhase pres M3).1
      (fun d hd => ⟨(hcondA d hd).2.2.1, (hcondA d hd).2.2.2⟩)
      ⟨mkPlaceholder GA pid, hPentryAD, rfl, rfl⟩
  -- phase B: the alias's own deletion step
  obtain ⟨hfire1, hfire2, hfire3⟩ :=
    deleteStep_fire (acc1.2.foldl deleteStep (aliasPhase pres M3).1) GA.id pid
      hGApid hndMA gA hgA hgAid gP hgP hgPid
  rw [hgAnm] at hfire1
  have hndMB : ((deleteStep (acc1.2.foldl deleteStep (aliasPhase pres M3).1)
      (GA.id, pid)).map MGlobal.id).Nodup :=
    hndMA.sublist (deleteStep_ids_sublist _ _)
  -- phase C: the remaining deletion steps
  have hndF : ((materializePreserved Mod part).map MGlobal.id).Nodup := by
    rw [hdel]
    exact deleteFold_nodup ext2 _ hndMB
  have habsF : ∀ g ∈ materializePreserved Mod part, g.id ≠ GA.id := by
    rw [hdel]
    exact deleteFold_absent GA.id ext2 _ hfire2
  have hdeclF : ∃ g ∈ materializePreserved Mod part,
      g.id = pid ∧ g.name = GA.name ∧ g.hasBody = false ∧ g.ops = [] := by
    rw [hdel]
    exact deleteFold_keep_decl pid GA.name ext2 _
      (fun d hd => ⟨(hcondC d hd).1, (hcondC d hd).2.1⟩) hfire1
  have hopsF : ∀ v ∈ materializePreserved Mod part, GA.id ∉ v.ops := by
    rw [hdel]
    exact deleteFold_ops_absent GA.id ext2 _
      (fun d hd => (hcondC d hd).2.2) hfire3
  refine ⟨pid, hpid_orig, hndF, habsF, hdeclF, hopsF, ?_⟩
  -- preserved users: position-wise rewriting of alias operands
  intro u hu huk hup
  have hu3m : u ∈ M3 := hu3 u hu huk hup
  have huidM3 : u.id ∈ M3.map MGlobal.id := List.mem_map_of_mem MGlobal.id hu3m
  have hune : ∀ a ∈ M3.filter (fun g => g.kind = MKind.Alias), u.id ≠ a.id := by
    intro a ha he
    have haM3 := (List.mem_filter.mp ha).1
    have hak : a.kind = MKind.Alias := by simpa using (List.mem_filter.mp ha).2
    have := List.inj_on_of_nodup_map hM3nd hu3m haM3 he
    rw [this] at huk
    exact huk hak
  have huneGA : u.id ≠ GA.id := hune GA hGAal
  have hunepid : u.id ≠ pid := fun he => hpidM3 (he ▸ huidM3)
  have hus1 : ∀ a ∈ s1, u.id ≠ a.id := by
    intro a ha
    apply hune
    rw [hsplit]
    exact List.mem_append_left _ ha
  have hus2 : ∀ a ∈ s2, u.id ≠ a.id := by
    intro a ha
    apply hune
    rw [hsplit]
    exact List.mem_append_right _ (List.mem_cons_of_mem _ ha)
  -- the user survives the alias loop untouched
  have huacc1 : u ∈ acc1.1 := by
    have := aliasFold_keep pres s1 (M3, []) u hu3m hus1
    rw [hacc1] at this
    exact this
  have huAD : u ∈ (aliasPhase pres M3).1 := by
    rw [hADeq]
    apply aliasFold_keep pres s2 _ _ ?_ hus2
    apply List.mem_append_left
    unfold setAliasee
    have he : (fun x => if x.id = GA.id then { x with ops := [pid] } else x) u
        = u := by
      dsimp only
      rw [if_neg huneGA]
    rw [← he]
    exact List.mem_map_of_mem _ huacc1
  -- phase A tracking
  obtain ⟨uA, huA, huAid, f1, hf1ops, hf1GA⟩ :=
    deleteFold_track u.id GA.id GA.id u.ops acc1.2 (aliasPhase pres M3).1
      (fun d hd => by
        obtain ⟨a, ha, hda⟩ := hl1fst d hd
        exact ⟨by rw [hda]; exact fun he => hus1 a ha he.symm,
          fun he => hsnd_not_orig d hd (he ▸ huidM3),
          by rw [hda]; exact fun he => hGAs1 a ha he.symm⟩)
      ⟨u, huAD, rfl, fun o => o, by simp, rfl⟩
  -- phase B tracking
  have huB : { uA with ops := uA.ops.map (fun o => if o = GA.id then pid else o) }
      ∈ deleteStep (acc1.2.foldl deleteStep (aliasPhase pres M3).1) (GA.id, pid) :=
    deleteStep_entry_image _ (GA.id, pid) uA huA
      (by rw [huAid]; exact huneGA) (by rw [huAid]; exact hunepid)
  -- phase C tracking
  obtain ⟨uF, huF, huFid, f2, hf2ops, hf2GA⟩ :=
    deleteFold_track u.id pid GA.id u.ops ext2
      (deleteStep (acc1.2.foldl deleteStep (aliasPhase pres M3).1) (GA.id, pid))
      (fun d hd => by
        obtain ⟨a, ha, hda⟩ := hext2P d hd
        exact ⟨by rw [hda]; exact fun he => hus2 a ha he.symm,
          fun he => hsnd2_not_orig d hd (he ▸ huidM3),
          (hcondC d hd).1⟩)
      ⟨{ uA with ops := uA.ops.map (fun o => if o = GA.id then pid else o) }, huB,
        huAid, (fun o => if o = GA.id then pid else o) ∘ f1,
        by
          show uA.ops.map (fun o => if o = GA.id then pid else o) = _
          rw [hf1ops, List.map_map],
        by
          show (if f1 GA.id = GA.id then pid else f1 GA.id) = pid
          rw [hf1GA, if_pos rfl]⟩
  have huFmem : uF ∈ materializePreserved Mod part := by
    rw [hdel]
    exact huF
  intro w hw hwid
  have hwuF : w = uF :=
    List.inj_on_of_nodup_map hndF hw huFmem (by rw [hwid, huFid])
  constructor
  · rw [hwuF, hf2ops, List.length_map]
  · intro k hk hkGA
    rw [hwuF, hf2ops,
      List.getD_eq_getElem _ 0 (by rw [List.length_map]; exact hk),
      List.getElem_map, ← List.getD_eq_getElem _ 0 hk, hkGA, hf2GA]

theorem C7_witness :
    (exMod.map MGlobal.id).Nodup ∧ (exPart.map Prod.fst).Nodup
      ∧ exAl ∈ exMod ∧ exAl.kind = MKind.Alias
      ∧ exAl.name ∉ exPart.map Prod.fst ∧ exAl.localLinkage = false
      ∧ (∃ pid, pid ∉ exMod.map MGlobal.id
          ∧ ((materializePreserved exMod exPart).map MGlobal.id).Nodup
          ∧ (∀ g ∈ materializePreserved exMod exPart, g.id ≠ exAl.id)
          ∧ (∃ g ∈ materializePreserved exMod exPart,
              g.id = pid ∧ g.name = exAl.name ∧ g.hasBody = false ∧ g.ops = [])
          ∧ (∀ v ∈ materializePreserved exMod exPart, exAl.id ∉ v.ops)
          ∧ (∀ u ∈ exMod, u.kind ≠ MKind.Alias → u.name ∈ preserveNames exPart →
              ∀ w ∈ materializePreserved exMod exPart, w.id = u.id →
                w.ops.length = u.ops.length
                ∧ ∀ k, k < u.ops.length → u.ops.getD k 0 = exAl.id →
                    w.ops.getD k 0 = pid)) :=
  ⟨by decide, by decide, by decide, by decide, by decide, by decide,
    C7_alias_materialization exMod exPart exAl (by decide) (by decide) (by decide)
      (by decide) (by decide) (by decide)⟩

/-- C5: the partition weight of a function symbol equals
`(1 + instruction count + basic-block count)` multiplied by its clone
multiplicity, where the clone multiplicity is 1 plus the popcount of the
hex-encoded `julia.mv.clones` attribute (and 1 when the attribute is
absent); a non-function global gets node weight exactly 1. -/
theorem C5_function_weight :
    (∀ F : Func,
        (getFunctionWeight F).weight
          = (1 + F.blocks.sum + F.blocks.length) * cloneMultiplicity F.clonesAttr)
      ∧ (∀ v, cloneMultiplicity (some v) = popCount (parseHex v) + 1)
      ∧ cloneMultiplicity none = 1
      ∧ (∀ nm d ai refs, nodeWeight ⟨nm, d, ai, none, refs⟩ = 1) :=
  ⟨fun _ => rfl, fun _ => rfl, rfl, fun _ _ _ _ => rfl⟩

/-- C6: with no environment overrides, the computed thread count is 1 when
the total weight is under the 1000 floor or the target is COFF with more
than 64000 globals; otherwise it starts at `max(jl_cpu_threads()/2, 1)`, is
capped at `globals / 100`, and the result is clamped to at least 1. -/
theorem C6_default_thread_count (isCOFF : Bool) (globals weight cpu : Nat) :
    (compute_image_thread_count isCOFF globals weight cpu ⟨none, none⟩).1
      = if weight < 1000 ∨ (isCOFF = true ∧ 64000 < globals) then 1
        else Nat.max (Nat.min (Nat.max (cpu / 2) 1) (globals / 100)) 1 := by
  unfold compute_image_thread_count
  by_cases h1 : isCOFF = true ∧ globals > 64000
  · rw [if_pos h1, if_pos (Or.inr ⟨h1.1, h1.2⟩)]
  · rw [if_neg h1]
    by_cases h2 : weight < 1000
    · rw [if_pos h2, if_pos (Or.inl h2)]
    · rw [if_neg h2, if_neg (fun hc => Or.elim hc h2 h1)]
      dsimp only
      simp only [ite_self]
      simp only [Nat.max_def, Nat.min_def]
      split_ifs <;> omega

/-- C9: when a forced single-thread condition holds (weight under the floor,
or COFF over the 64000-global ceiling), `compute_image_thread_count` returns
1 before reading either environment override: the result is `(1, [])` for
every environment, so even a valid explicit override cannot raise it. -/
theorem C9_forced_single_thread (isCOFF : Bool) (globals weight cpu : Nat)
    (env : ThreadEnv) (h : weight < 1000 ∨ (isCOFF = true ∧ 64000 < globals)) :
    compute_image_thread_count isCOFF globals weight cpu env = (1, []) := by
  unfold compute_image_thread_count
  rcases h with h | h
  · by_cases h1 : isCOFF = true ∧ globals > 64000
    · rw [if_pos h1]
    · rw [if_neg h1, if_pos h]
  · rw [if_pos ⟨h.1, h.2⟩]

theorem C9_witness :
    (500 < 1000 ∨ (false = true ∧ 64000 < 10))
      ∧ compute_image_thread_count false 10 500 8
          ⟨some ['9'], some ['2']⟩ = (1, []) :=
  ⟨Or.inl (by decide),
    C9_forced_single_thread false 10 500 8 ⟨some ['9'], some ['2']⟩ (Or.inl (by decide))⟩

/-- C8: a malformed explicit `JULIA_IMAGE_THREADS` value (nonempty
non-numeric remainder, or zero) is warned about and ignored, leaving the
value computed without it; a well-formed explicit override replaces the
computed value regardless of the fallback; the `JULIA_CPU_THREADS` fallback
(consulted only with no explicit override set) can only lower the result. -/
theorem C8_override_handling (isCOFF : Bool) (globals weight cpu : Nat) :
    (∀ s ft, (strtoul10 s).2 ≠ [] ∨ (strtoul10 s).1 = 0 →
        (compute_image_thread_count isCOFF globals weight cpu ⟨some s, ft⟩).1
            = (compute_image_thread_count isCOFF globals weight cpu ⟨none, ft⟩).1
          ∧ (¬(weight < 1000 ∨ (isCOFF = true ∧ 64000 < globals)) →
              "WARNING: invalid value for JULIA_IMAGE_THREADS"
                ∈ (compute_image_thread_count isCOFF globals weight cpu ⟨some s, ft⟩).2))
      ∧ (∀ s ft, (strtoul10 s).2 = [] → (strtoul10 s).1 ≠ 0 →
          ¬(weight < 1000 ∨ (isCOFF = true ∧ 64000 < globals)) →
          (compute_image_thread_count isCOFF globals weight cpu ⟨some s, ft⟩).1
            = (strtoul10 s).1)
      ∧ (∀ f, (compute_image_thread_count isCOFF globals weight cpu ⟨none, some f⟩).1
            ≤ (compute_image_thread_count isCOFF globals weight cpu ⟨none, none⟩).1) := by
  refine ⟨?_, ?_, ?_⟩
  · intro s ft hbad
    by_cases h1 : isCOFF = true ∧ globals > 64000
    · constructor
      · unfold compute_image_thread_count
        rw [if_pos h1, if_pos h1]
      · intro hn; exact absurd (Or.inr ⟨h1.1, h1.2⟩) hn
    · by_cases h2 : weight < 1000
      · constructor
        · unfold compute_image_thread_count
          rw [if_neg h1, if_pos h2, if_neg h1, if_pos h2]
        · intro hn; exact absurd (Or.inl h2) hn
      · unfold compute_image_thread_count
        rw [if_neg h1, if_neg h2, if_neg h1, if_neg h2]
        dsimp only
        rw [if_pos hbad]
        constructor
        · cases ft with
          | none => simp
          | some f =>
            dsimp only
            simp only [apply_ite (@Prod.fst Nat (List String))]
        · intro _
          cases ft with
          | none => simp
          | some f =>
            dsimp only
            simp only [apply_ite (@Prod.snd Nat (List String))]
            split_ifs <;> simp
  · intro s ft hrest hval hforce
    have h1 : ¬(isCOFF = true ∧ globals > 64000) := fun hc => hforce (Or.inr ⟨hc.1, hc.2⟩)
    have h2 : ¬weight < 1000 := fun hw => hforce (Or.inl hw)
    unfold compute_image_thread_count
    rw [if_neg h1, if_neg h2]
    dsimp only
    rw [if_neg (not_or.mpr ⟨fun hc => hc hrest, hval⟩)]
    dsimp only
    rw [if_neg (by simp)]
    simp only [Nat.max_def]
    split_ifs <;> omega
  · intro f
    by_cases h1 : isCOFF = true ∧ globals > 64000
    · unfold compute_image_thread_count
      rw [if_pos h1, if_pos h1]
    · by_cases h2 : weight < 1000
      · unfold compute_image_thread_count
        rw [if_neg h1, if_pos h2, if_neg h1, if_pos h2]
      · unfold compute_image_thread_count
        rw [if_neg h1, if_neg h2, if_neg h1, if_neg h2]
        dsimp only
        simp only [ite_self]
        simp only [apply_ite (@Prod.fst Nat (List String)), Nat.max_def]
        split_ifs <;> omega

theorem C8_witness :
    (compute_image_thread_count false 5000 5000 64 ⟨some ['x'], none⟩).1
        = (compute_image_thread_count false 5000 5000 64 ⟨none, none⟩).1
      ∧ "WARNING: invalid value for JULIA_IMAGE_THREADS"
          ∈ (compute_image_thread_count false 5000 5000 64 ⟨some ['x'], none⟩).2
      ∧ (compute_image_thread_count false 5000 5000 64 ⟨some ['7'], none⟩).1
          = (strtoul10 ['7']).1
      ∧ (compute_image_thread_count false 5000 5000 64 ⟨none, some ['3']⟩).1
          ≤ (compute_image_thread_count false 5000 5000 64 ⟨none, none⟩).1 := by
  have h := C8_override_handling false 5000 5000 64
  exact ⟨(h.1 ['x'] none (by decide)).1, (h.1 ['x'] none (by decide)).2 (by decide),
    h.2.1 ['7'] none (by decide) (by decide) (by decide), h.2.2 ['3']⟩

/-- C10: for one requested output kind, the archive member list is exactly:
one member per shard in ascending shard-index order named
`"text" ++ pfx ++ "#" ++ i ++ sfx`, then one `metadata` member, then one
`sysimg` member if and only if a system image buffer was supplied. -/
theorem C10_archive_member_layout (T : Nat) (pfx sfx : String) (z : Bool) :
    (archiveMembers T pfx sfx z).length = T + 1 + (if z then 1 else 0)
      ∧ (∀ i, i < T → (archiveMembers T pfx sfx z)[i]?
            = some ("text" ++ pfx ++ "#" ++ toString i ++ sfx))
      ∧ (archiveMembers T pfx sfx z)[T]? = some ("metadata" ++ pfx ++ sfx)
      ∧ (z = true → (archiveMembers T pfx sfx z)[T+1]? = some ("sysimg" ++ pfx ++ sfx))
      ∧ (z = false → (archiveMembers T pfx sfx z)[T+1]? = none) := by
  unfold archiveMembers
  have hlen : ((List.range T).map
      (fun i => "text" ++ pfx ++ "#" ++ toString i ++ sfx)).length = T := by simp
  refine ⟨?_, ?_, ?_, ?_, ?_⟩
  · cases z <;> simp
  · intro i hi
    rw [List.getElem?_append_left (by simp; omega),
      List.getElem?_append_left (by simpa using hi)]
    simp [hi]
  · rw [List.getElem?_append_left (by simp), List.getElem?_append_right (by simp)]
    simp
  · intro hz; subst hz
    rw [List.getElem?_append_right (by simp)]
    simp
  · intro hz; subst hz
    rw [List.getElem?_append_right (by simp)]
    simp

theorem C10_witness :
    (archiveMembers 2 "_unopt" ".bc" true).length = 2 + 1 + (if true then 1 else 0)
      ∧ (archiveMembers 2 "_unopt" ".bc" true)[1]?
          = some ("text" ++ "_unopt" ++ "#" ++ toString 1 ++ ".bc")
      ∧ (archiveMembers 2 "_unopt" ".bc" true)[2]?
          = some ("metadata" ++ "_unopt" ++ ".bc")
      ∧ (archiveMembers 2 "_unopt" ".bc" true)[3]?
          = some ("sysimg" ++ "_unopt" ++ ".bc") := by
  have h := C10_archive_member_layout 2 "_unopt" ".bc" true
  exact ⟨h.1, h.2.1 1 (by decide), h.2.2.1, h.2.2.2.1 rfl⟩

end AotCompile
